import Mathlib

/-!
Verification of the regex-engine repository (graph.rs, parser.rs, automata.rs).

The Rust sources are shallowly embedded:
* `Node`/`Graph` and the arena operations mirror `src/graph.rs`
  (`add_node`, `set_active`, `bump_endlinked`, `add_cost`, `add_junction`,
  `close_junction`, `zero_or_one`, `one_or_more`, `zero_or_more`).
  Rust's `Vec<Option<Node<T>>>` becomes `List (Option (Node T))`; indexed
  writes become `List.set` and indexed reads `List.getD _ _ none`.
* `Lexeme`, the lexer loop, `CharClass`, `CharCost`, `ParserState` and the
  parser loop mirror `src/parser.rs`.  Rust `Result<_, std::fmt::Error>`
  becomes `Except Unit _`.  The Rust `Vec` used as a stack pushes/pops at the
  back; the Lean embedding `group_starts` keeps the top of the stack at the
  head of the list, so Rust `last()` is Lean `headD` and `pop` is a head match.
* Acceptance of a word by the built automaton is the inductive path relation
  `Accepts` (labeled edges consume one input element, unlabeled edges are
  epsilon transitions), from the start node to the final active node.
-/

set_option maxRecDepth 4000

namespace Regex

/-- Mirrors `struct Node<T>` of graph.rs: ordered edge list plus the
`endlinked` (open-frontier) marker. -/
structure Node (T : Type) where
  edges : List (Nat × Option T)
  endlinked : Bool
  deriving DecidableEq, Repr

/-- Mirrors `struct Graph<T>` of graph.rs: arena of optional nodes, a start
handle and the single active handle. -/
structure Graph (T : Type) where
  arena : List (Option (Node T))
  start : Nat
  active : Nat
  deriving DecidableEq, Repr

/-- Mirrors `Graph::add_node`: push the node, return its index
(the arena length before the push). -/
def add_node {T : Type} (g : Graph T) (node : Node T) : Graph T × Nat :=
  ({ g with arena := g.arena ++ [some node] }, g.arena.length)

/-- In-place update of arena slot `i` (Rust `self.arena[i].as_mut().unwrap()`).
Out-of-range writes and `none` slots are left unchanged; on every graph the
code actually reaches the slot exists and is `some` (claim C8). -/
def modifyNode {T : Type} (g : Graph T) (i : Nat) (f : Node T → Node T) : Graph T :=
  { g with arena := g.arena.set i ((g.arena.getD i none).map f) }

/-- Mirrors `Graph::set_active`: mark the node endlinked and move `active`. -/
def set_active {T : Type} (g : Graph T) (new_active : Nat) : Graph T :=
  { modifyNode g new_active (fun n => { n with endlinked := true }) with active := new_active }

/-- Mirrors `Graph::bump_endlinked`: clear the endlinked marker of node
`endlinked` and push the edge `(new, cost)` onto its edge list. -/
def bump_endlinked {T : Type} (g : Graph T) (endlinked new : Nat) (cost : Option T) : Graph T :=
  modifyNode g endlinked (fun n => { n with endlinked := false, edges := n.edges ++ [(new, cost)] })

/-- Mirrors `Graph::new`: allocate node 0 and make it active. -/
def Graph.new {T : Type} : Graph T :=
  let g0 : Graph T := { arena := [], start := 0, active := 0 }
  let p := add_node g0 { edges := [], endlinked := false }
  set_active p.1 0

/-- Mirrors `Graph::add_cost`: allocate a new node, add a labeled edge from
the old active node to it, and make it active. -/
def add_cost {T : Type} (g : Graph T) (cost : T) : Graph T :=
  let p := add_node g { edges := [], endlinked := false }
  set_active (bump_endlinked p.1 g.active p.2 (some cost)) p.2

/-- Mirrors `Graph::add_junction` (spec `open_branch`): re-activate `start`. -/
def add_junction {T : Type} (g : Graph T) (start : Nat) : Graph T :=
  set_active g start

/-- Whether arena slot `i` holds an endlinked node (the test made by the
scan loop of `Graph::close_junction`). -/
def endlinkedAt {T : Type} (g : Graph T) (i : Nat) : Bool :=
  match g.arena.getD i none with
  | some n => n.endlinked
  | none => false

/-- The list of dangling (endlinked) node indices scanned by
`Graph::close_junction`: indices from `start` to the end of the arena whose
slot holds an endlinked node. -/
def danglingList {T : Type} (g : Graph T) (start : Nat) : List Nat :=
  (List.range' start (g.arena.length - start)).filter (fun i => endlinkedAt g i)

/-- Mirrors `Graph::close_junction` (spec `close_branches`): collect dangling
nodes at or after `start`; if any, allocate one merge node, add an epsilon
edge from each dangling node to it, and make it active. -/
def close_junction {T : Type} (g : Graph T) (start : Nat) : Graph T :=
  let dangling := danglingList g start
  if dangling.isEmpty then g
  else
    let p := add_node g { edges := [], endlinked := false }
    let g2 := dangling.foldl (fun acc i => bump_endlinked acc i p.2 none) p.1
    set_active g2 p.2

/-- Mirrors `Graph::zero_or_one` (spec `make_optional`). -/
def zero_or_one {T : Type} (g : Graph T) (start : Nat) : Graph T :=
  close_junction (add_junction g start) start

/-- Mirrors `Graph::one_or_more` (spec `make_repeatable`): push an epsilon
back-edge from the active node to `start`. -/
def one_or_more {T : Type} (g : Graph T) (start : Nat) : Graph T :=
  modifyNode g g.active (fun n => { n with edges := n.edges ++ [(start, none)] })

/-- Mirrors `Graph::zero_or_more` (spec `make_optional_repeatable`). -/
def zero_or_more {T : Type} (g : Graph T) (start : Nat) : Graph T :=
  add_junction (one_or_more g start) start

/-- Mirrors `enum Lexeme` of parser.rs. -/
inductive Lexeme where
  | Literal : Char → Lexeme
  | OpenParen | CloseParen
  | OpenBracket | CloseBracket
  | Star | Question | Plus | Dot | Bar
  | Builtin : Char → Lexeme
  | Range : Char → Char → Lexeme
  deriving DecidableEq, Repr

/-- Mirrors `Lexeme::match_char`. -/
def Lexeme.match_char (character : Char) : Lexeme :=
  if character = '(' then .OpenParen
  else if character = ')' then .CloseParen
  else if character = '[' then .OpenBracket
  else if character = ']' then .CloseBracket
  else if character = '*' then .Star
  else if character = '?' then .Question
  else if character = '+' then .Plus
  else if character = '.' then .Dot
  else if character = '|' then .Bar
  else .Literal character

/-- Mirrors `Lexeme::lexeme_to_char`. -/
def Lexeme.lexeme_to_char : Lexeme → Char
  | .Bar => '|'
  | .Builtin a => a
  | .CloseBracket => ']'
  | .CloseParen => ')'
  | .Dot => '.'
  | .Literal a => a
  | .OpenBracket => '['
  | .OpenParen => '('
  | .Plus => '+'
  | .Question => '?'
  | .Star => '*'
  | .Range _ _ => '-'

/-- The token pushed for an escape `\next` (the `'\\'` branch of `fn lexer`):
a character that would lex as a `Literal` becomes a `Builtin`, a structural
character becomes a `Literal`. -/
def escTok (next : Char) : Lexeme :=
  match Lexeme.match_char next with
  | .Literal _ => .Builtin next
  | _ => .Literal next

/-- The `'-'` handling inside a class (the range branch of `fn lexer`): pop
the last token; `[`-tokens, ranges and an empty list are lexical errors, as
is a following `]`; otherwise the popped token is replaced by a range up to
the following character. -/
def dashResult (acc : List Lexeme) (next : Char) : Except Unit (List Lexeme) :=
  match acc.getLast? with
  | none => .error ()
  | some .OpenBracket => .error ()
  | some (.Range _ _) => .error ()
  | some last =>
      if next = ']' then .error ()
      else .ok (acc.dropLast ++ [.Range last.lexeme_to_char next])

/-- The loop of `fn lexer` in parser.rs, with the loop state made explicit:
remaining characters, the `in_class` flag, and the accumulated token list
(`lex_string`, pushed at the back).  The source tests the current character
with a chain of `if`s; here each test is a literal pattern, kept in the
source's priority order (a `-` inside a class with no following character is
an error on every path of the source, whatever the popped token was). -/
def lexGo : List Char → Bool → List Lexeme → Except Unit (List Lexeme)
  | [], _, acc => .ok acc
  | ']' :: rest, true, acc => lexGo rest false (acc ++ [.CloseBracket])
  | ['-'], true, _ => .error ()
  | '-' :: next :: rest2, true, acc =>
      (dashResult acc next).bind (fun acc2 => lexGo rest2 true acc2)
  | character :: rest, true, acc => lexGo rest true (acc ++ [.Literal character])
  | '[' :: rest, false, acc => lexGo rest true (acc ++ [.OpenBracket])
  | ['\\'], false, acc => .ok acc
  | '\\' :: next :: rest2, false, acc => lexGo rest2 false (acc ++ [escTok next])
  | character :: rest, false, acc => lexGo rest false (acc ++ [Lexeme.match_char character])

/-- Mirrors `fn lexer` of parser.rs (pattern as a list of characters). -/
def lexer (regex : List Char) : Except Unit (List Lexeme) :=
  lexGo regex false []

/-- Mirrors `struct CharClass`: literal characters plus `std::ops::Range`
ranges, each stored as a `(start, end)` pair. -/
structure CharClass where
  chars : List Char
  ranges : List (Char × Char)
  deriving DecidableEq, Repr

/-- Mirrors `CharClass::new`. -/
def CharClass.new : CharClass := { chars := [], ranges := [] }

/-- Mirrors `CharClass::is_in`.  `Range::contains` on a `std::ops::Range` is
the half-open test `start <= letter && letter < end`. -/
def CharClass.is_in (cls : CharClass) (letter : Char) : Bool :=
  cls.chars.contains letter ||
    cls.ranges.foldl (fun a x => a || (decide (x.1 ≤ letter) && decide (letter < x.2))) false

/-- Mirrors `CharClass::plus_literal` (Vec push = append at the back). -/
def CharClass.plus_literal (cls : CharClass) (new_char : Char) : CharClass :=
  { cls with chars := cls.chars ++ [new_char] }

/-- Mirrors `CharClass::plus_range`. -/
def CharClass.plus_range (cls : CharClass) (start_char end_char : Char) : CharClass :=
  { cls with ranges := cls.ranges ++ [(start_char, end_char)] }

/-- Mirrors `enum CharCost`. -/
inductive CharCost where
  | Singleton : Char → CharCost
  | Dot : CharCost
  | Class : CharClass → CharCost
  deriving DecidableEq, Repr

/-- Mirrors `enum ParserState`. -/
inductive ParserState where
  | OutOfClassWithoutQual : ParserState
  | InClass : Nat → CharClass → ParserState
  | QualWithoutClass : Nat → ParserState
  deriving DecidableEq, Repr

/-- The per-lexeme transition of `fn parser` in parser.rs, acting on the loop
state (group-start stack with its top at the head, parser state, graph).
Arms are in the source's match order. -/
def parserStep (st : List Nat × ParserState × Graph CharCost) (lexeme : Lexeme) :
    Except Unit (List Nat × ParserState × Graph CharCost) :=
  let group_starts := st.1
  let state := st.2.1
  let graph := st.2.2
  match lexeme, state with
  | .Bar, .OutOfClassWithoutQual =>
      .ok (group_starts, state, add_junction graph (group_starts.headD 0))
  | .Bar, .QualWithoutClass _ =>
      .ok (group_starts, state, add_junction graph (group_starts.headD 0))
  | .OpenParen, .OutOfClassWithoutQual =>
      .ok (graph.active :: group_starts, state, graph)
  | .OpenParen, .QualWithoutClass _ =>
      .ok (graph.active :: group_starts, state, graph)
  | .OpenBracket, .OutOfClassWithoutQual =>
      .ok (group_starts, .InClass graph.active CharClass.new, graph)
  | .OpenBracket, .QualWithoutClass _ =>
      .ok (group_starts, .InClass graph.active CharClass.new, graph)
  | .CloseParen, .OutOfClassWithoutQual =>
      match group_starts with
      | start :: remaining =>
          .ok (remaining, .QualWithoutClass start, close_junction graph start)
      | [] => .error ()
  | .CloseParen, .QualWithoutClass _ =>
      match group_starts with
      | start :: remaining =>
          .ok (remaining, .QualWithoutClass start, close_junction graph start)
      | [] => .error ()
  | .Literal character, .OutOfClassWithoutQual =>
      let graph2 := add_cost graph (CharCost.Singleton character)
      .ok (group_starts, .QualWithoutClass graph2.active, graph2)
  | .Literal character, .QualWithoutClass _ =>
      let graph2 := add_cost graph (CharCost.Singleton character)
      .ok (group_starts, .QualWithoutClass graph2.active, graph2)
  | .Dot, .OutOfClassWithoutQual =>
      let graph2 := add_cost graph CharCost.Dot
      .ok (group_starts, .QualWithoutClass graph2.active, graph2)
  | .Dot, .QualWithoutClass _ =>
      let graph2 := add_cost graph CharCost.Dot
      .ok (group_starts, .QualWithoutClass graph2.active, graph2)
  | .Builtin _, .QualWithoutClass _ => .ok (group_starts, state, graph)
  | .Builtin _, .OutOfClassWithoutQual => .ok (group_starts, state, graph)
  | _, .OutOfClassWithoutQual => .error ()
  | .CloseBracket, .InClass _ cls =>
      let graph2 := add_cost graph (CharCost.Class cls)
      .ok (group_starts, .OutOfClassWithoutQual, graph2)
  | .Literal new_char, .InClass anchor cls =>
      .ok (group_starts, .InClass anchor (cls.plus_literal new_char), graph)
  | .Range start_char end_char, .InClass anchor cls =>
      .ok (group_starts, .InClass anchor ((cls.plus_range start_char end_char).plus_literal end_char), graph)
  | _, .InClass _ _ => .error ()
  | .Plus, .QualWithoutClass start =>
      .ok (group_starts, .OutOfClassWithoutQual, one_or_more graph start)
  | .Question, .QualWithoutClass start =>
      .ok (group_starts, .OutOfClassWithoutQual, zero_or_one graph start)
  | .Star, .QualWithoutClass start =>
      .ok (group_starts, .OutOfClassWithoutQual, zero_or_more graph start)
  | _, .QualWithoutClass _ => .error ()

/-- Mirrors `fn parser` of parser.rs: lex, then fold the per-lexeme
transition; the graph is returned as soon as the tokens are exhausted. -/
def parser (regex : List Char) : Except Unit (Graph CharCost) :=
  match lexer regex with
  | .error e => .error e
  | .ok lex_string =>
    match lex_string.foldlM parserStep ([], ParserState.OutOfClassWithoutQual, Graph.new) with
    | .error e => .error e
    | .ok st => .ok st.2.2

/-- The edge list of the node at handle `i` (empty for a missing slot). -/
def nodeEdges {T : Type} (g : Graph T) (i : Nat) : List (Nat × Option T) :=
  match g.arena.getD i none with
  | some n => n.edges
  | none => []

/-- A word is consumed along a path of `g` from node `j` to node `accept`:
labeled edges consume exactly one element, unlabeled edges consume nothing. -/
inductive Accepts {T : Type} (g : Graph T) (accept : Nat) : Nat → List T → Prop where
  | done : Accepts g accept accept []
  | lbl {j i : Nat} {c : T} {w : List T} :
      (i, some c) ∈ nodeEdges g j → Accepts g accept i w → Accepts g accept j (c :: w)
  | eps {j i : Nat} {w : List T} :
      (i, none) ∈ nodeEdges g j → Accepts g accept i w → Accepts g accept j w

/-- The language of a built automaton: words consumed along a path from the
start node to the node that is the final active handle after construction. -/
def GAccepts {T : Type} (g : Graph T) (w : List T) : Prop :=
  Accepts g g.active g.start w

/-- `w` repeated `n` times. -/
def repWord {T : Type} (cs : List T) : Nat → List T
  | 0 => []
  | n + 1 => cs ++ repWord cs n

/-- The atom `X = cs`, built on a fresh graph by one `add_cost` per element. -/
def atomGraph {T : Type} (cs : List T) : Graph T :=
  cs.foldl add_cost Graph.new

/-- Number of epsilon (unlabeled) edges of one arena slot that point to `t`. -/
def epsIntoSlot {T : Type} (t : Nat) : Option (Node T) → Nat
  | none => 0
  | some n => n.edges.countP (fun e => decide (e.1 = t) && e.2.isNone)

/-- Total number of epsilon edges of `g` that point to node `t`. -/
def epsInto {T : Type} (g : Graph T) (t : Nat) : Nat :=
  (g.arena.map (epsIntoSlot t)).sum

/-- One branch of an alternation, opened from handle 0 by `add_junction` and
extended by one `add_cost` per element (a branch of length zero is just the
`add_junction` call). -/
def buildBranch {T : Type} (g : Graph T) (b : List T) : Graph T :=
  b.foldl add_cost (add_junction g 0)

/-- A build sequence opening each listed branch from handle 0 of a fresh
graph; `close_junction _ 0` then merges them. -/
def buildBranches {T : Type} (branches : List (List T)) : Graph T :=
  branches.foldl buildBranch Graph.new

/-- Number of endlinked nodes of the whole arena. -/
def endCount {T : Type} (g : Graph T) : Nat :=
  (List.range g.arena.length).countP (fun i => endlinkedAt g i)

/-- Running tally of how many dangling nodes a branch list leaves behind:
each branch contributes one unless handle 0 was already dangling when it was
opened, and after a branch handle 0 dangles exactly when the branch was
empty. -/
def branchGain {T : Type} : Bool → List (List T) → Nat
  | _, [] => 0
  | flag, b :: rest => (if flag then 0 else 1) + branchGain b.isEmpty rest

/-- Every arena slot holds a node. -/
def AllSome {T : Type} (g : Graph T) : Prop :=
  ∀ slot ∈ g.arena, slot.isSome = true

/-- Every edge target references a handle inside the arena (the edge-target
invariant of the arena design). -/
def TargetsLT {T : Type} (g : Graph T) : Prop :=
  ∀ i : Nat, ∀ e ∈ nodeEdges g i, e.1 < g.arena.length

/-- The construction invariant of a graph being built: all slots occupied,
the arena non-empty, the active handle in range and endlinked, and all edge
targets in range. -/
def GInv {T : Type} (g : Graph T) : Prop :=
  AllSome g ∧ 0 < g.arena.length ∧ g.active < g.arena.length ∧
    endlinkedAt g g.active = true ∧ TargetsLT g

/-- Graphs reachable from `Graph::new` through the public operations, each
called with an in-range handle (callers only pass handles previously observed
as `active`, which are always in range). -/
inductive Reachable {T : Type} : Graph T → Prop where
  | base : Reachable Graph.new
  | cost {g : Graph T} {c : T} : Reachable g → Reachable (add_cost g c)
  | junction {g : Graph T} {s : Nat} :
      Reachable g → s < g.arena.length → Reachable (add_junction g s)
  | closeJ {g : Graph T} {s : Nat} :
      Reachable g → s < g.arena.length → Reachable (close_junction g s)
  | optional {g : Graph T} {s : Nat} :
      Reachable g → s < g.arena.length → Reachable (zero_or_one g s)
  | repeatable {g : Graph T} {s : Nat} :
      Reachable g → s < g.arena.length → Reachable (one_or_more g s)
  | optrep {g : Graph T} {s : Nat} :
      Reachable g → s < g.arena.length → Reachable (zero_or_more g s)

/-- Stepping the lexer loop outside a class on an ordinary character pushes
its structural token. -/
theorem lexGo_step_plain (c : Char) (t : List Char) (acc : List Lexeme)
    (h1 : c ≠ '[') (h2 : c ≠ '\\') :
    lexGo (c :: t) false acc = lexGo t false (acc ++ [Lexeme.match_char c]) := by
  cases t with
  | nil => rw [lexGo.eq_def]; simp [h1, h2]
  | cons d t' => rw [lexGo.eq_def]; simp [h1, h2]

/-- Stepping the lexer loop on `[` outside a class enters class mode. -/
theorem lexGo_step_open (t : List Char) (acc : List Lexeme) :
    lexGo ('[' :: t) false acc = lexGo t true (acc ++ [Lexeme.OpenBracket]) := by
  cases t with
  | nil => rfl
  | cons d t' => rw [lexGo.eq_def]; simp

/-- Stepping the lexer loop inside a class on an ordinary character pushes a
literal token. -/
theorem lexGo_step_class_lit (c : Char) (t : List Char) (acc : List Lexeme)
    (h1 : c ≠ ']') (h2 : c ≠ '-') :
    lexGo (c :: t) true acc = lexGo t true (acc ++ [Lexeme.Literal c]) := by
  cases t with
  | nil => rw [lexGo.eq_def]; simp [h1, h2]
  | cons d t' => rw [lexGo.eq_def]; simp [h1, h2]

/-- Appending a trailing backslash to characters that stay outside class mode
does not change the lexer loop's result: the final `'\\'` consumes no
following character and pushes nothing. -/
theorem lexGo_trailing_backslash (s : List Char) :
    ∀ acc : List Lexeme, '\\' ∉ s → '[' ∉ s →
      lexGo (s ++ ['\\']) false acc = lexGo s false acc := by
  induction s with
  | nil => intro acc _ _; rfl
  | cons c t ih =>
      intro acc hb ho
      have hc1 : c ≠ '\\' := fun h => hb (h ▸ List.mem_cons_self c t)
      have hc2 : c ≠ '[' := fun h => ho (h ▸ List.mem_cons_self c t)
      rw [List.cons_append, lexGo_step_plain c (t ++ ['\\']) acc hc2 hc1,
        lexGo_step_plain c t acc hc2 hc1]
      exact ih _ (fun h => hb (List.mem_cons_of_mem c h))
        (fun h => ho (List.mem_cons_of_mem c h))

/-- Claim C6 (corrected): a dangling escape at end of input is not a lexical
error; the lexer silently drops the trailing backslash, so a pattern that
never enters class mode and ends in a dangling `\` lexes exactly like the
same pattern without it. -/
theorem claim_C6_trailing_backslash_dropped (s : List Char)
    (hb : '\\' ∉ s) (ho : '[' ∉ s) :
    lexer (s ++ ['\\']) = lexer s :=
  lexGo_trailing_backslash s [] hb ho

/-- Claim C6 witness: the concrete pattern `a\` lexes exactly like `a`. -/
theorem claim_C6_trailing_backslash_dropped_witness :
    lexer (['a'] ++ ['\\']) = lexer ['a'] :=
  claim_C6_trailing_backslash_dropped ['a'] (by decide) (by decide)

/-- Claim C7: every malformed use of `-` inside a bracket class is a lexical
error value (never a token list): `-` immediately before `]` (for any
ordinary class character before it), a leading `-`, `-` right after a range,
and `-` at end of input. -/
theorem claim_C7_malformed_ranges :
    lexer ['[', 'a', '-', ']'] = Except.error () ∧
    (∀ c : Char, c ≠ ']' → c ≠ '-' → lexer ['[', c, '-', ']'] = Except.error ()) ∧
    lexer ['[', '-', 'x', ']'] = Except.error () ∧
    lexer ['[', 'a', '-', 'b', '-', 'c', ']'] = Except.error () ∧
    lexer ['[', 'a', '-'] = Except.error () := by
  refine ⟨rfl, ?_, rfl, rfl, rfl⟩
  intro c h1 h2
  show lexGo ['[', c, '-', ']'] false [] = Except.error ()
  rw [lexGo_step_open, lexGo_step_class_lit c ['-', ']'] _ h1 h2]
  rfl

/-- Claim C7 witness: the generalized `-`-before-`]` case at `c = 'q'`. -/
theorem claim_C7_malformed_ranges_witness :
    lexer ['[', 'q', '-', ']'] = Except.error () :=
  claim_C7_malformed_ranges.2.1 'q' (by decide) (by decide)

/-- Claim C3 counterexample: the pattern `(a` reaches the end of its tokens
with the group `(` still open, yet the parser returns the automaton instead
of a syntax error. -/
theorem claim_C3_counterexample :
    ∃ g : Graph CharCost, parser ['(', 'a'] = Except.ok g :=
  ⟨_, rfl⟩

/-- Claim C3 (corrected): the parser never inspects the group stack once the
tokens are exhausted; a pattern whose group stack is non-empty at end of
input still succeeds, returning the same automaton as if the unmatched `(`
were absent — here `(a` parses to exactly the automaton of `a`. -/
theorem claim_C3_unclosed_group_accepted :
    parser ['(', 'a'] = parser ['a'] ∧ (parser ['(', 'a']).isOk = true :=
  ⟨rfl, rfl⟩

/-- Claim C4 counterexample: after `plus_range('a','b')` (a range with
start ≤ end), `is_in('b')` is `false`: the stored `std::ops::Range` is
half-open, so the end boundary is excluded. -/
theorem claim_C4_counterexample :
    (CharClass.new.plus_range 'a' 'b').is_in 'b' = false ∧ ('a' : Char) ≤ 'b' :=
  ⟨rfl, by decide⟩

/-- Claim C4 (corrected): adding the range `(s, e)` via `plus_range` makes
`is_in(c)` report membership exactly for `s ≤ c < e` on top of the previous
membership — half-open, so `is_in(e)` stays false unless `e` is otherwise
included. -/
theorem claim_C4_half_open_range (cls : CharClass) (s e c : Char) :
    (cls.plus_range s e).is_in c =
      (cls.is_in c || (decide (s ≤ c) && decide (c < e))) := by
  simp only [CharClass.is_in, CharClass.plus_range, List.foldl_append, List.foldl_cons,
    List.foldl_nil, Bool.or_assoc]

/-- Claim C5: compiling `(N3|TRA|N7)+` yields 9 nodes; node 0 carries the
three labeled edges `'N'`, `'T'`, `'N'` to nodes 1, 3, 6 in that order; the
merge node 8 is the final active node and has a single epsilon back-edge to
node 0. -/
theorem claim_C5_concrete_pattern :
    ∃ g : Graph CharCost,
      parser ['(', 'N', '3', '|', 'T', 'R', 'A', '|', 'N', '7', ')', '+'] = Except.ok g ∧
      g.arena.length = 9 ∧
      g.active = 8 ∧
      nodeEdges g 0 = [(1, some (CharCost.Singleton 'N')), (3, some (CharCost.Singleton 'T')),
        (6, some (CharCost.Singleton 'N'))] ∧
      nodeEdges g 8 = [(0, none)] :=
  ⟨_, rfl, rfl, rfl, rfl, rfl⟩

/-- Claim C6 counterexample: the pattern `a\` ends in a dangling escape, yet
the lexer returns a token list (the trailing backslash is silently dropped)
instead of a lexical error. -/
theorem claim_C6_counterexample :
    lexer ['a', '\\'] = Except.ok [Lexeme.Literal 'a'] :=
  rfl

/-- Claim C9: a `Builtin` token is a complete no-op in both non-class parser
modes — group stack, parser state (including a pending quantifier target) and
graph are all returned unchanged — so a quantifier right after it acts on the
atom that preceded the builtin. -/
theorem claim_C9_builtin_noop :
    (∀ (gs : List Nat) (g : Graph CharCost) (c : Char),
       parserStep (gs, ParserState.OutOfClassWithoutQual, g) (Lexeme.Builtin c) =
         Except.ok (gs, ParserState.OutOfClassWithoutQual, g)) ∧
    (∀ (gs : List Nat) (t : Nat) (g : Graph CharCost) (c : Char),
       parserStep (gs, ParserState.QualWithoutClass t, g) (Lexeme.Builtin c) =
         Except.ok (gs, ParserState.QualWithoutClass t, g)) ∧
    (∀ (gs : List Nat) (t : Nat) (g : Graph CharCost) (c : Char) (l : Lexeme),
       (parserStep (gs, ParserState.QualWithoutClass t, g) (Lexeme.Builtin c)).bind
           (fun st => parserStep st l) =
         parserStep (gs, ParserState.QualWithoutClass t, g) l) :=
  ⟨fun _ _ _ => rfl, fun _ _ _ _ => rfl, fun _ _ _ _ _ => rfl⟩

/-- Claim C10: in class mode a `Range(s,e)` token adds both the range and,
additionally, the literal end character to the accumulating class; the class
parsed from `[a-z]` therefore accepts every character from `a` to `z`
(including `z`, via the extra literal) and rejects `A`. -/
theorem claim_C10_class_range :
    (∀ (gs : List Nat) (anchor : Nat) (cls : CharClass) (g : Graph CharCost) (s e : Char),
       parserStep (gs, ParserState.InClass anchor cls, g) (Lexeme.Range s e) =
         Except.ok (gs, ParserState.InClass anchor ((cls.plus_range s e).plus_literal e), g)) ∧
    (∃ (cls : CharClass) (g : Graph CharCost),
       parser ['[', 'a', '-', 'z', ']'] = Except.ok g ∧
       nodeEdges g 0 = [(1, some (CharCost.Class cls))] ∧
       ((List.range 26).all fun n => cls.is_in (Char.ofNat (97 + n))) = true ∧
       cls.is_in 'A' = false) :=
  ⟨fun _ _ _ _ _ _ => rfl, _, _, rfl, rfl, by decide, rfl⟩

/-- `modifyNode` keeps every arena slot occupied: it rewrites one occupied
slot in place (out-of-range indices leave the arena unchanged). -/
theorem allSome_modifyNode {T : Type} {g : Graph T} {i : Nat} {f : Node T → Node T}
    (h : AllSome g) : AllSome (modifyNode g i f) := by
  intro slot hs
  simp only [modifyNode] at hs
  by_cases hi : i < g.arena.length
  · rcases List.mem_or_eq_of_mem_set hs with h1 | h2
    · exact h slot h1
    · subst h2
      rw [List.getD_eq_getElem?_getD, List.getElem?_eq_getElem hi]
      have hmem := h _ (List.getElem_mem hi)
      cases hx : g.arena[i] with
      | none => rw [hx] at hmem; simp at hmem
      | some n => rfl
  · rw [List.set_eq_of_length_le (Nat.le_of_not_lt hi)] at hs
    exact h slot hs

/-- `set_active` keeps every arena slot occupied. -/
theorem allSome_set_active {T : Type} {g : Graph T} {i : Nat}
    (h : AllSome g) : AllSome (set_active g i) :=
  allSome_modifyNode h

/-- `bump_endlinked` keeps every arena slot occupied. -/
theorem allSome_bump {T : Type} {g : Graph T} {e n : Nat} {cost : Option T}
    (h : AllSome g) : AllSome (bump_endlinked g e n cost) :=
  allSome_modifyNode h

/-- `add_node` appends an occupied slot. -/
theorem allSome_add_node {T : Type} {g : Graph T} {node : Node T}
    (h : AllSome g) : AllSome (add_node g node).1 := by
  intro slot hs
  rcases List.mem_append.mp hs with h1 | h2
  · exact h slot h1
  · rw [List.mem_singleton.mp h2]
    rfl

/-- The epsilon-edge fold of `close_junction` keeps every arena slot
occupied. -/
theorem allSome_bump_fold {T : Type} (idx : Nat) :
    ∀ (D : List Nat) (g : Graph T), AllSome g →
      AllSome (D.foldl (fun acc i => bump_endlinked acc i idx none) g) := by
  intro D
  induction D with
  | nil => intro g h; exact h
  | cons d D ih => intro g h; exact ih _ (allSome_bump h)

/-- Claim C8: every graph reachable from `Graph::new` through the public
operations has a node in every arena slot — no operation ever stores `None`,
so the internal unwraps of arena entries never observe `None`. -/
theorem claim_C8_arena_all_some {T : Type} (g : Graph T) (h : Reachable g) :
    AllSome g := by
  induction h with
  | base =>
      intro slot hs
      rw [List.mem_singleton.mp hs]
      rfl
  | cost _ ih => exact allSome_set_active (allSome_bump (allSome_add_node ih))
  | junction _ _ ih => exact allSome_set_active ih
  | closeJ hr hlt ih =>
      rename_i g' s
      show AllSome (close_junction g' s)
      rw [close_junction]
      by_cases he : (danglingList g' s).isEmpty
      · rw [if_pos he]; exact ih
      · rw [if_neg he]
        exact allSome_set_active (allSome_bump_fold _ _ _ (allSome_add_node ih))
  | optional hr hlt ih =>
      rename_i g' s
      show AllSome (close_junction (add_junction g' s) s)
      rw [close_junction]
      by_cases he : (danglingList (add_junction g' s) s).isEmpty
      · rw [if_pos he]; exact allSome_set_active ih
      · rw [if_neg he]
        exact allSome_set_active
          (allSome_bump_fold _ _ _ (allSome_add_node (allSome_set_active ih)))
  | repeatable _ _ ih => exact allSome_modifyNode ih
  | optrep _ _ ih => exact allSome_set_active (allSome_modifyNode ih)

/-- Claim C8 witness: a concrete reachable graph (`a*` built by hand) has an
occupied arena everywhere. -/
theorem claim_C8_arena_all_some_witness :
    AllSome (zero_or_more (add_cost (Graph.new : Graph Char) 'a') 0) :=
  claim_C8_arena_all_some _
    (Reachable.optrep (Reachable.cost Reachable.base) (by decide))

/-- `getD` through an append of a single element. -/
theorem getD_append_one {α : Type _} (A : List α) (x d : α) (j : Nat) :
    (A ++ [x]).getD j d = if j = A.length then x else A.getD j d := by
  by_cases hj : j = A.length
  · subst hj
    rw [if_pos rfl, List.getD_eq_getElem?_getD, List.getElem?_append_right (Nat.le_refl _)]
    simp
  · rw [if_neg hj]
    rcases Nat.lt_or_ge j A.length with hlt | hge
    · exact List.getD_append _ _ _ _ hlt
    · have hgt : A.length < j := Nat.lt_of_le_of_ne hge (fun h => hj h.symm)
      rw [List.getD_eq_getElem?_getD, List.getD_eq_getElem?_getD,
        List.getElem?_eq_none (by simpa using hgt), List.getElem?_eq_none (Nat.le_of_lt hgt)]

/-- `getD` through `modifyNode`. -/
theorem getD_modifyNode {T : Type} (g : Graph T) (i : Nat) (f : Node T → Node T) (j : Nat) :
    (modifyNode g i f).arena.getD j none =
      if i = j ∧ i < g.arena.length then (g.arena.getD i none).map f
      else g.arena.getD j none := by
  simp only [modifyNode]
  rw [List.getD_eq_getElem?_getD, List.getElem?_set]
  by_cases hij : i = j
  · subst hij
    by_cases hi : i < g.arena.length
    · simp [hi]
    · simp [hi, List.getD_eq_getElem?_getD,
        List.getElem?_eq_none (Nat.le_of_not_lt hi)]
  · simp [hij, List.getD_eq_getElem?_getD]

/-- A `some` slot at every in-range index, from `AllSome`. -/
theorem getD_some_of_allSome {T : Type} {g : Graph T} (h : AllSome g) {i : Nat}
    (hi : i < g.arena.length) : ∃ n : Node T, g.arena.getD i none = some n := by
  rw [List.getD_eq_getElem?_getD, List.getElem?_eq_getElem hi]
  have hmem := h _ (List.getElem_mem hi)
  cases hx : g.arena[i] with
  | none => rw [hx] at hmem; simp at hmem
  | some n => exact ⟨n, rfl⟩

/-- An occupied slot is in range. -/
theorem lt_of_getD_some {T : Type} {g : Graph T} {i : Nat} {n : Node T}
    (hn : g.arena.getD i none = some n) : i < g.arena.length := by
  by_contra hi
  rw [List.getD_eq_getElem?_getD, List.getElem?_eq_none (Nat.le_of_not_lt hi)] at hn
  simp at hn

theorem length_modifyNode {T : Type} (g : Graph T) (i : Nat) (f : Node T → Node T) :
    (modifyNode g i f).arena.length = g.arena.length := by
  simp [modifyNode]

theorem length_set_active {T : Type} (g : Graph T) (i : Nat) :
    (set_active g i).arena.length = g.arena.length :=
  length_modifyNode g i _

theorem length_bump {T : Type} (g : Graph T) (e n : Nat) (c : Option T) :
    (bump_endlinked g e n c).arena.length = g.arena.length :=
  length_modifyNode g e _

theorem length_add_cost {T : Type} (g : Graph T) (c : T) :
    (add_cost g c).arena.length = g.arena.length + 1 := by
  simp [add_cost, add_node, set_active, bump_endlinked, modifyNode]

theorem active_add_cost {T : Type} (g : Graph T) (c : T) :
    (add_cost g c).active = g.arena.length :=
  rfl

theorem active_set_active {T : Type} (g : Graph T) (i : Nat) :
    (set_active g i).active = i :=
  rfl

/-- `endlinkedAt` through `modifyNode` of an occupied slot. -/
theorem endlinkedAt_modify_of_some {T : Type} {g : Graph T} {i : Nat} {n : Node T}
    (f : Node T → Node T) (hn : g.arena.getD i none = some n) (j : Nat) :
    endlinkedAt (modifyNode g i f) j =
      if i = j then (f n).endlinked else endlinkedAt g j := by
  have hi : i < g.arena.length := lt_of_getD_some hn
  unfold endlinkedAt
  rw [getD_modifyNode]
  by_cases hij : i = j
  · rw [if_pos ⟨hij, hi⟩, if_pos hij, hn]
    rfl
  · rw [if_neg (fun h => hij h.1), if_neg hij]

/-- `nodeEdges` through `modifyNode` of an occupied slot. -/
theorem nodeEdges_modify_of_some {T : Type} {g : Graph T} {i : Nat} {n : Node T}
    (f : Node T → Node T) (hn : g.arena.getD i none = some n) (j : Nat) :
    nodeEdges (modifyNode g i f) j =
      if i = j then (f n).edges else nodeEdges g j := by
  have hi : i < g.arena.length := lt_of_getD_some hn
  unfold nodeEdges
  rw [getD_modifyNode]
  by_cases hij : i = j
  · rw [if_pos ⟨hij, hi⟩, if_pos hij, hn]
    rfl
  · rw [if_neg (fun h => hij h.1), if_neg hij]

/-- `endlinkedAt` through `add_node`. -/
theorem endlinkedAt_add_node {T : Type} (g : Graph T) (node : Node T) (j : Nat) :
    endlinkedAt (add_node g node).1 j =
      if j = g.arena.length then node.endlinked else endlinkedAt g j := by
  unfold endlinkedAt add_node
  rw [getD_append_one]
  by_cases hj : j = g.arena.length
  · rw [if_pos hj, if_pos hj]
  · rw [if_neg hj, if_neg hj]

/-- `nodeEdges` through `add_node`. -/
theorem nodeEdges_add_node {T : Type} (g : Graph T) (node : Node T) (j : Nat) :
    nodeEdges (add_node g node).1 j =
      if j = g.arena.length then node.edges else nodeEdges g j := by
  unfold nodeEdges add_node
  rw [getD_append_one]
  by_cases hj : j = g.arena.length
  · rw [if_pos hj, if_pos hj]
  · rw [if_neg hj, if_neg hj]

/-- `set_active` does not change any edge list. -/
theorem nodeEdges_set_active {T : Type} (g : Graph T) (i j : Nat) :
    nodeEdges (set_active g i) j = nodeEdges g j := by
  show nodeEdges (modifyNode g i _) j = nodeEdges g j
  unfold nodeEdges
  rw [getD_modifyNode]
  by_cases hc : i = j ∧ i < g.arena.length
  · rw [if_pos hc, ← hc.1]
    cases hm : g.arena.getD i none with
    | none => rfl
    | some n => rfl
  · rw [if_neg hc]

/-- `countP` over `range n` loses exactly one hit when the predicate flips
from true to false at a single in-range point. -/
theorem countP_range_flip (n j : Nat) (p q : Nat → Bool) (hj : j < n)
    (hpj : p j = true) (hqj : q j = false)
    (hother : ∀ i, i < n → i ≠ j → q i = p i) :
    (List.range n).countP q + 1 = (List.range n).countP p := by
  induction n with
  | zero => exact absurd hj (Nat.not_lt_zero j)
  | succ n ih =>
      rw [List.range_succ, List.countP_append, List.countP_append]
      by_cases hjn : j = n
      · subst hjn
        have hcong : (List.range j).countP q = (List.range j).countP p :=
          List.countP_congr (fun i hi => by
            rw [hother i (Nat.lt_succ_of_lt (List.mem_range.mp hi))
              (Nat.ne_of_lt (List.mem_range.mp hi))])
        have e1 : List.countP q [j] = 0 := by simp [List.countP_cons, hqj]
        have e2 : List.countP p [j] = 1 := by simp [List.countP_cons, hpj]
        omega
      · have hrec := ih (by omega) (fun i hi hij => hother i (by omega) hij)
        have hqp : q n = p n := hother n (by omega) (by omega)
        have e1 : List.countP q [n] = List.countP p [n] := by
          simp [List.countP_cons, hqp]
        omega

/-- `endlinkedAt` through `set_active` of an occupied slot. -/
theorem endlinkedAt_set_active_of_some {T : Type} {g : Graph T} {i : Nat} {n : Node T}
    (hn : g.arena.getD i none = some n) (j : Nat) :
    endlinkedAt (set_active g i) j = if i = j then true else endlinkedAt g j := by
  show endlinkedAt (modifyNode g i _) j = _
  rw [endlinkedAt_modify_of_some _ hn j]

/-- `endlinkedAt` through `bump_endlinked` of an occupied slot. -/
theorem endlinkedAt_bump_of_some {T : Type} {g : Graph T} {i t : Nat} {c : Option T}
    {n : Node T} (hn : g.arena.getD i none = some n) (j : Nat) :
    endlinkedAt (bump_endlinked g i t c) j = if i = j then false else endlinkedAt g j := by
  show endlinkedAt (modifyNode g i _) j = _
  rw [endlinkedAt_modify_of_some _ hn j]

/-- `nodeEdges` through `bump_endlinked` of an occupied slot. -/
theorem nodeEdges_bump_of_some {T : Type} {g : Graph T} {i t : Nat} {c : Option T}
    {n : Node T} (hn : g.arena.getD i none = some n) (j : Nat) :
    nodeEdges (bump_endlinked g i t c) j =
      if i = j then n.edges ++ [(t, c)] else nodeEdges g j := by
  show nodeEdges (modifyNode g i _) j = _
  rw [nodeEdges_modify_of_some _ hn j]

/-- `endlinkedAt` through an arena append. -/
theorem endlinkedAt_append {T : Type} (g : Graph T) (node : Node T) (j : Nat) :
    endlinkedAt { g with arena := g.arena ++ [some node] } j =
      if j = g.arena.length then node.endlinked else endlinkedAt g j := by
  unfold endlinkedAt
  rw [show ({ g with arena := g.arena ++ [some node] } : Graph T).arena.getD j none
      = (g.arena ++ [some node]).getD j none from rfl, getD_append_one]
  by_cases hj : j = g.arena.length
  · rw [if_pos hj, if_pos hj]
  · rw [if_neg hj, if_neg hj]

/-- `nodeEdges` through an arena append. -/
theorem nodeEdges_append {T : Type} (g : Graph T) (node : Node T) (j : Nat) :
    nodeEdges { g with arena := g.arena ++ [some node] } j =
      if j = g.arena.length then node.edges else nodeEdges g j := by
  unfold nodeEdges
  rw [show ({ g with arena := g.arena ++ [some node] } : Graph T).arena.getD j none
      = (g.arena ++ [some node]).getD j none from rfl, getD_append_one]
  by_cases hj : j = g.arena.length
  · rw [if_pos hj, if_pos hj]
  · rw [if_neg hj, if_neg hj]

/-- `add_cost` written as its composition of primitive steps. -/
theorem add_cost_eq {T : Type} (g : Graph T) (c : T) :
    add_cost g c =
      set_active
        (bump_endlinked { g with arena := g.arena ++ [some (Node.mk [] false)] }
          g.active g.arena.length (some c))
        g.arena.length :=
  rfl

/-- Pointwise effect of `add_cost` on the endlinked markers: the new node is
marked, the old active node is cleared, everything else is unchanged. -/
theorem endlinkedAt_add_cost {T : Type} {g : Graph T} {c : T}
    (hA : AllSome g) (ha : g.active < g.arena.length) (j : Nat) :
    endlinkedAt (add_cost g c) j =
      if j = g.arena.length then true
      else if j = g.active then false
      else endlinkedAt g j := by
  obtain ⟨n, hn⟩ := getD_some_of_allSome hA ha
  have hg1 : ({ g with arena := g.arena ++ [some (Node.mk [] false)] } : Graph T).arena.getD
      g.active none = some n := by
    show (g.arena ++ [some (Node.mk [] false)]).getD g.active none = some n
    rw [getD_append_one, if_neg (Nat.ne_of_lt ha)]
    exact hn
  have hlen1 : (bump_endlinked
      ({ g with arena := g.arena ++ [some (Node.mk [] false)] } : Graph T)
      g.active g.arena.length (some c)).arena.getD g.arena.length none
      = some (Node.mk [] false) := by
    show (modifyNode _ g.active _).arena.getD _ none = _
    rw [getD_modifyNode, if_neg (fun h => absurd h.1 (Nat.ne_of_lt ha))]
    show (g.arena ++ [some (Node.mk [] false)]).getD g.arena.length none = _
    rw [getD_append_one, if_pos rfl]
  rw [add_cost_eq, endlinkedAt_set_active_of_some hlen1 j,
    endlinkedAt_bump_of_some hg1 j, endlinkedAt_append]
  split_ifs <;> first | rfl | omega

/-- Pointwise effect of `add_cost` on edge lists: the new node has none, the
old active node gains the labeled edge, everything else is unchanged. -/
theorem nodeEdges_add_cost {T : Type} {g : Graph T} {c : T}
    (hA : AllSome g) (ha : g.active < g.arena.length) (j : Nat) :
    nodeEdges (add_cost g c) j =
      if j = g.arena.length then []
      else if j = g.active then nodeEdges g j ++ [(g.arena.length, some c)]
      else nodeEdges g j := by
  obtain ⟨n, hn⟩ := getD_some_of_allSome hA ha
  have hedges : nodeEdges g g.active = n.edges := by
    unfold nodeEdges
    rw [hn]
  have hg1 : ({ g with arena := g.arena ++ [some (Node.mk [] false)] } : Graph T).arena.getD
      g.active none = some n := by
    show (g.arena ++ [some (Node.mk [] false)]).getD g.active none = some n
    rw [getD_append_one, if_neg (Nat.ne_of_lt ha)]
    exact hn
  rw [add_cost_eq, nodeEdges_set_active, nodeEdges_bump_of_some hg1 j, nodeEdges_append]
  by_cases h1 : j = g.arena.length
  · have h2 : ¬ (g.active = j) := fun h => Nat.ne_of_lt ha (h.trans h1)
    rw [if_neg h2, if_pos h1, if_pos h1]
  · by_cases h2 : j = g.active
    · rw [if_pos h2.symm, if_neg h1, if_pos h2, h2, hedges]
    · rw [if_neg (fun h => h2 h.symm), if_neg h1, if_neg h1, if_neg h2]

/-- `set_active` at an occupied slot preserves the construction invariant. -/
theorem ginv_set_active {T : Type} {g : Graph T} {i : Nat}
    (h : GInv g) (hi : i < g.arena.length) : GInv (set_active g i) := by
  obtain ⟨hA, hpos, ha, hact, htg⟩ := h
  obtain ⟨n, hn⟩ := getD_some_of_allSome hA hi
  refine ⟨allSome_set_active hA, ?_, ?_, ?_, ?_⟩
  · rw [length_set_active]; exact hpos
  · rw [length_set_active, active_set_active]; exact hi
  · rw [active_set_active, endlinkedAt_set_active_of_some hn i, if_pos rfl]
  · intro k e he
    rw [nodeEdges_set_active] at he
    rw [length_set_active]
    exact htg k e he

/-- `add_cost` preserves the construction invariant. -/
theorem ginv_add_cost {T : Type} {g : Graph T} {c : T}
    (h : GInv g) : GInv (add_cost g c) := by
  obtain ⟨hA, hpos, ha, hact, htg⟩ := h
  refine ⟨allSome_set_active (allSome_bump (allSome_add_node hA)), ?_, ?_, ?_, ?_⟩
  · rw [length_add_cost]; omega
  · rw [length_add_cost, active_add_cost]; omega
  · rw [active_add_cost, endlinkedAt_add_cost hA ha, if_pos rfl]
  · intro i e he
    rw [length_add_cost]
    rw [nodeEdges_add_cost hA ha] at he
    by_cases h1 : i = g.arena.length
    · rw [if_pos h1] at he
      cases he
    · rw [if_neg h1] at he
      by_cases h2 : i = g.active
      · rw [if_pos h2] at he
        rcases List.mem_append.mp he with h3 | h3
        · exact Nat.lt_succ_of_lt (htg i e h3)
        · rw [List.mem_singleton.mp h3]
          exact Nat.lt_succ_self _
      · rw [if_neg h2] at he
        exact Nat.lt_succ_of_lt (htg i e he)

/-- Effect of `set_active` on the endlinked count: one more marked node
unless the target was already marked. -/
theorem endCount_set_active {T : Type} {g : Graph T} {i : Nat}
    (hA : AllSome g) (hi : i < g.arena.length) :
    endCount (set_active g i) =
      if endlinkedAt g i then endCount g else endCount g + 1 := by
  obtain ⟨n, hn⟩ := getD_some_of_allSome hA hi
  have hpt : ∀ j, endlinkedAt (set_active g i) j = if i = j then true else endlinkedAt g j :=
    fun j => endlinkedAt_set_active_of_some hn j
  unfold endCount
  rw [length_set_active]
  by_cases ht : endlinkedAt g i
  · rw [if_pos ht]
    refine List.countP_congr (fun x _ => ?_)
    rw [hpt x]
    by_cases hix : i = x
    · rw [if_pos hix, ← hix]
      simp [ht]
    · rw [if_neg hix]
  · rw [if_neg ht]
    have hflip := countP_range_flip g.arena.length i
      (fun x => endlinkedAt (set_active g i) x) (fun x => endlinkedAt g x) hi
      (by simp [hpt])
      (by simpa using ht)
      (fun x _ hx => by
        have hne : i ≠ x := fun h => hx h.symm
        simp [hpt x, hne])
    omega

/-- `add_cost` leaves the endlinked count unchanged: it clears the old
active marker and sets the new node's. -/
theorem endCount_add_cost {T : Type} {g : Graph T} {c : T}
    (hA : AllSome g) (ha : g.active < g.arena.length)
    (hact : endlinkedAt g g.active = true) :
    endCount (add_cost g c) = endCount g := by
  have hpt := fun j => endlinkedAt_add_cost (c := c) hA ha j
  unfold endCount
  rw [length_add_cost, List.range_succ, List.countP_append]
  have h1 : (List.range g.arena.length).countP (fun x => endlinkedAt (add_cost g c) x) + 1
      = (List.range g.arena.length).countP (fun x => endlinkedAt g x) := by
    refine countP_range_flip g.arena.length g.active _ _ ha hact ?_ ?_
    · simp [hpt g.active, Nat.ne_of_lt ha]
    · intro i hi hia
      simp [hpt i, Nat.ne_of_lt hi, hia]
  have h2 : (List.countP (fun x => endlinkedAt (add_cost g c) x) [g.arena.length]) = 1 := by
    simp only [List.countP_cons, List.countP_nil, hpt g.arena.length, if_pos rfl]
    simp
  omega


/-- Different defaults do not matter for `getLastD` of a non-empty list. -/
theorem getLastD_cons_irrel {α : Type _} (r : α) (rs : List α) (d1 d2 : α) :
    (r :: rs).getLastD d1 = (r :: rs).getLastD d2 := by
  rw [List.getLastD_eq_getLast?, List.getLastD_eq_getLast?]
  obtain ⟨x, hx⟩ := Option.isSome_iff_exists.mp
    (List.getLast?_isSome.mpr (List.cons_ne_nil r rs))
  rw [hx]
  rfl

/-- A chain of `add_cost` calls preserves the construction invariant. -/
theorem ginv_foldl_add_cost {T : Type} :
    ∀ (b : List T) (g : Graph T), GInv g → GInv (b.foldl add_cost g) := by
  intro b
  induction b with
  | nil => intro g h; exact h
  | cons c b ih => intro g h; exact ih _ (ginv_add_cost h)

/-- A chain of `add_cost` calls keeps the endlinked count. -/
theorem endCount_foldl_add_cost {T : Type} :
    ∀ (b : List T) (g : Graph T), GInv g → endCount (b.foldl add_cost g) = endCount g := by
  intro b
  induction b with
  | nil => intro g _; rfl
  | cons c b ih =>
      intro g h
      rw [List.foldl_cons, ih _ (ginv_add_cost h),
        endCount_add_cost h.1 h.2.2.1 h.2.2.2.1]

/-- A chain of `add_cost` calls grows the arena by its length. -/
theorem length_foldl_add_cost {T : Type} :
    ∀ (b : List T) (g : Graph T),
      (b.foldl add_cost g).arena.length = g.arena.length + b.length := by
  intro b
  induction b with
  | nil => intro g; rfl
  | cons c b ih =>
      intro g
      rw [List.foldl_cons, ih, length_add_cost, List.length_cons]
      omega

/-- A chain of `add_cost` calls leaves the marker of any in-range node other
than the starting active node unchanged. -/
theorem endlinkedAt_foldl_add_cost {T : Type} :
    ∀ (b : List T) (g : Graph T) (j : Nat), GInv g → j ≠ g.active →
      j < g.arena.length →
      endlinkedAt (b.foldl add_cost g) j = endlinkedAt g j := by
  intro b
  induction b with
  | nil => intro g j _ _ _; rfl
  | cons c b ih =>
      intro g j h hja hjl
      rw [List.foldl_cons, ih _ j (ginv_add_cost h) ?_ ?_,
        endlinkedAt_add_cost h.1 h.2.2.1, if_neg (Nat.ne_of_lt hjl), if_neg hja]
      · rw [active_add_cost]
        exact Nat.ne_of_lt hjl
      · rw [length_add_cost]
        exact Nat.lt_succ_of_lt hjl

/-- `buildBranch` preserves the construction invariant. -/
theorem ginv_buildBranch {T : Type} {g : Graph T} (b : List T) (h : GInv g) :
    GInv (buildBranch g b) :=
  ginv_foldl_add_cost b _ (ginv_set_active h h.2.1)

/-- `buildBranch` grows the endlinked count by one unless handle 0 was
already dangling when the branch was opened. -/
theorem endCount_buildBranch {T : Type} {g : Graph T} (b : List T) (h : GInv g) :
    endCount (buildBranch g b) = endCount g + (if endlinkedAt g 0 then 0 else 1) := by
  unfold buildBranch
  rw [show add_junction g 0 = set_active g 0 from rfl,
    endCount_foldl_add_cost b _ (ginv_set_active h h.2.1),
    endCount_set_active h.1 h.2.1]
  by_cases h0 : endlinkedAt g 0
  · rw [if_pos h0, if_pos h0]
    omega
  · rw [if_neg h0, if_neg h0]

/-- After `buildBranch`, handle 0 dangles exactly when the branch was
empty. -/
theorem flag_buildBranch {T : Type} {g : Graph T} (b : List T) (h : GInv g) :
    endlinkedAt (buildBranch g b) 0 = b.isEmpty := by
  obtain ⟨n, hn⟩ := getD_some_of_allSome h.1 h.2.1
  cases b with
  | nil =>
      show endlinkedAt (add_junction g 0) 0 = true
      rw [show add_junction g 0 = set_active g 0 from rfl,
        endlinkedAt_set_active_of_some hn 0, if_pos rfl]
  | cons c b =>
      show endlinkedAt (b.foldl add_cost (add_cost (add_junction g 0) c)) 0 = false
      have hj : GInv (add_junction g 0) := ginv_set_active h h.2.1
      have hl0 : (add_junction g 0).arena.length = g.arena.length := length_set_active g 0
      rw [endlinkedAt_foldl_add_cost b _ 0 (ginv_add_cost hj) ?_ ?_,
        endlinkedAt_add_cost hj.1 hj.2.2.1]
      · rw [if_neg ?_, show (add_junction g 0).active = 0 from rfl, if_pos rfl]
        rw [hl0]
        exact Nat.ne_of_lt h.2.1
      · rw [active_add_cost, hl0]
        exact Nat.ne_of_lt h.2.1
      · rw [length_add_cost, hl0]
        exact Nat.lt_succ_of_lt h.2.1

/-- Folding `buildBranch` over a branch list: the invariant is kept, the
endlinked count grows by `branchGain`, and at the end handle 0 dangles
exactly when the last branch was empty. -/
theorem buildBranches_spec {T : Type} :
    ∀ (bs : List (List T)) (g : Graph T), GInv g →
      GInv (bs.foldl buildBranch g) ∧
      endCount (bs.foldl buildBranch g) = endCount g + branchGain (endlinkedAt g 0) bs ∧
      (bs = [] ∨ endlinkedAt (bs.foldl buildBranch g) 0 = (bs.getLastD []).isEmpty) := by
  intro bs
  induction bs with
  | nil =>
      intro g h
      exact ⟨h, by simp [branchGain], Or.inl rfl⟩
  | cons b rest ih =>
      intro g h
      have hg' : GInv (buildBranch g b) := ginv_buildBranch b h
      obtain ⟨h1, h2, h3⟩ := ih (buildBranch g b) hg'
      rw [List.foldl_cons]
      refine ⟨h1, ?_, ?_⟩
      · rw [h2, endCount_buildBranch b h, flag_buildBranch b h]
        show _ = endCount g + ((if endlinkedAt g 0 then 0 else 1) + branchGain b.isEmpty rest)
        omega
      · rcases rest with _ | ⟨r, rs⟩
        · refine Or.inr ?_
          show endlinkedAt (buildBranch g b) 0 = ([b].getLastD []).isEmpty
          rw [flag_buildBranch b h]
          rfl
        · rcases h3 with h3 | h3
          · exact absurd h3 (List.cons_ne_nil r rs)
          · refine Or.inr ?_
            rw [h3, show ((b :: r :: rs).getLastD []) = ((r :: rs).getLastD b)
                from List.getLastD_cons _ _ _, getLastD_cons_irrel r rs b []]

/-- The running tally of dangling branch ends equals the nonempty-branch
count plus one for a trailing empty branch. -/
theorem branchGain_formula {T : Type} :
    ∀ (bs : List (List T)) (b : List T),
      1 + branchGain b.isEmpty bs =
        ((b :: bs).filter (fun x => !x.isEmpty)).length +
          (if ((b :: bs).getLastD []).isEmpty then 1 else 0) := by
  intro bs
  induction bs with
  | nil =>
      intro b
      by_cases hb : b.isEmpty
      · simp [branchGain, List.filter_cons, hb, List.getLastD_cons]
      · simp [branchGain, List.filter_cons, hb, List.getLastD_cons]
  | cons r rs ih =>
      intro b
      have hrec := ih r
      have hlast : ((b :: r :: rs).getLastD []).isEmpty
          = ((r :: rs).getLastD []).isEmpty := by
        rw [List.getLastD_cons, getLastD_cons_irrel r rs b []]
      show 1 + ((if b.isEmpty then 0 else 1) + branchGain r.isEmpty rs) = _
      rw [List.filter_cons, hlast]
      by_cases hb : b.isEmpty
      · rw [if_pos hb, if_neg (by simp [hb])]
        omega
      · rw [if_neg hb, if_pos (by simp [hb]), List.length_cons]
        omega


/-- Sum of a list after a single in-range update, in add-form. -/
theorem sum_set_getD (A : List Nat) :
    ∀ (i x : Nat), i < A.length → (A.set i x).sum + A.getD i 0 = A.sum + x := by
  induction A with
  | nil => intro i x hi; cases hi
  | cons a A ih =>
      intro i x hi
      cases i with
      | zero =>
          rw [List.set_cons_zero, List.getD_cons_zero, List.sum_cons, List.sum_cons]
          omega
      | succ i =>
          have := ih i x (Nat.lt_of_succ_lt_succ (by simpa using hi))
          rw [List.set_cons_succ, List.getD_cons_succ, List.sum_cons, List.sum_cons]
          omega

/-- Pushing one epsilon edge towards `t` onto an occupied node raises the
number of epsilon edges into `t` by one. -/
theorem epsInto_bump_none {T : Type} {g : Graph T} {d t : Nat} {n : Node T}
    (hn : g.arena.getD d none = some n) :
    epsInto (bump_endlinked g d t none) t = epsInto g t + 1 := by
  have hd : d < g.arena.length := lt_of_getD_some hn
  unfold epsInto bump_endlinked modifyNode
  rw [hn, List.map_set]
  have hnew : epsIntoSlot t ((some n).map
      (fun n => { n with endlinked := false, edges := n.edges ++ [(t, none)] }))
      = epsIntoSlot t (some n) + 1 := by
    show (n.edges ++ [(t, none)]).countP _ = n.edges.countP _ + 1
    rw [List.countP_append]
    simp [List.countP_cons]
  rw [hnew]
  have hsum := sum_set_getD (g.arena.map (epsIntoSlot t)) d
    (epsIntoSlot t (some n) + 1) (by rw [List.length_map]; exact hd)
  have hgd : (g.arena.map (epsIntoSlot t)).getD d 0 = epsIntoSlot t (some n) := by
    rw [show (0 : Nat) = epsIntoSlot t (none : Option (Node T)) from rfl,
      List.getD_map, hn]
  rw [hgd] at hsum
  omega

/-- A modification that keeps a node's edge list keeps every epsilon-edge
count. -/
theorem epsInto_modify_edges {T : Type} {g : Graph T} {i : Nat}
    {f : Node T → Node T} (hf : ∀ n, (f n).edges = n.edges) (t : Nat) :
    epsInto (modifyNode g i f) t = epsInto g t := by
  by_cases hi : i < g.arena.length
  · unfold epsInto modifyNode
    rw [List.map_set]
    have heq : epsIntoSlot t ((g.arena.getD i none).map f)
        = epsIntoSlot t (g.arena.getD i none) := by
      cases hx : g.arena.getD i none with
      | none => rfl
      | some n =>
          show (f n).edges.countP _ = n.edges.countP _
          rw [hf n]
    rw [heq]
    have hsum := sum_set_getD (g.arena.map (epsIntoSlot t)) i
      (epsIntoSlot t (g.arena.getD i none))
      (by rw [List.length_map]; exact hi)
    have hgd : (g.arena.map (epsIntoSlot t)).getD i 0
        = epsIntoSlot t (g.arena.getD i none) := by
      rw [show (0 : Nat) = epsIntoSlot t (none : Option (Node T)) from rfl,
        List.getD_map]
    rw [hgd] at hsum
    omega
  · unfold epsInto modifyNode
    rw [List.set_eq_of_length_le (Nat.le_of_not_lt hi)]

/-- `set_active` keeps every epsilon-edge count. -/
theorem epsInto_set_active {T : Type} (g : Graph T) (i t : Nat) :
    epsInto (set_active g i) t = epsInto g t := by
  show epsInto (modifyNode g i (fun n => { n with endlinked := true })) t = epsInto g t
  exact @epsInto_modify_edges T g i (fun n => { n with endlinked := true }) (fun _ => rfl) t

/-- Appending an edgeless node keeps every epsilon-edge count. -/
theorem epsInto_append_new {T : Type} (g : Graph T) (t : Nat) :
    epsInto { g with arena := g.arena ++ [some (Node.mk [] false)] } t = epsInto g t := by
  unfold epsInto
  rw [show ({ g with arena := g.arena ++ [some (Node.mk [] false)] } : Graph T).arena
      = g.arena ++ [some (Node.mk [] false)] from rfl,
    List.map_append, List.sum_append]
  rfl

/-- The epsilon-edge fold of `close_junction` adds exactly one epsilon edge
into the merge node per dangling node. -/
theorem epsInto_fold_bump {T : Type} (t : Nat) :
    ∀ (D : List Nat) (g : Graph T), AllSome g → (∀ d ∈ D, d < g.arena.length) →
      epsInto (D.foldl (fun acc i => bump_endlinked acc i t none) g) t
        = epsInto g t + D.length := by
  intro D
  induction D with
  | nil => intro g _ _; rfl
  | cons d D ih =>
      intro g hA hb
      obtain ⟨n, hn⟩ := getD_some_of_allSome hA (hb d (List.mem_cons_self d D))
      rw [List.foldl_cons, ih _ (allSome_bump hA) ?_, epsInto_bump_none hn,
        List.length_cons]
      · omega
      · intro x hx
        rw [length_bump]
        exact hb x (List.mem_cons_of_mem d hx)

/-- No epsilon edge can point at an index at or past the arena end. -/
theorem epsInto_zero_of_targets {T : Type} {g : Graph T} {t : Nat}
    (htg : TargetsLT g) (ht : g.arena.length ≤ t) : epsInto g t = 0 := by
  unfold epsInto
  refine List.sum_eq_zero (fun x hx => ?_)
  obtain ⟨slot, hslot, hfx⟩ := List.mem_map.mp hx
  obtain ⟨i, hi, hival⟩ := List.getElem_of_mem hslot
  cases hs : slot with
  | none => rw [← hfx, hs]; rfl
  | some n =>
      rw [← hfx, hs]
      show n.edges.countP _ = 0
      rw [List.countP_eq_zero]
      intro e he
      have hne : nodeEdges g i = n.edges := by
        unfold nodeEdges
        rw [List.getD_eq_getElem?_getD, List.getElem?_eq_getElem hi, hival, hs]
        rfl
      have := htg i e (by rw [hne]; exact he)
      simp only [Bool.and_eq_true, decide_eq_true_eq]
      intro hcon
      omega

/-- Membership facts about the dangling list. -/
theorem mem_danglingList {T : Type} {g : Graph T} {d : Nat} :
    d ∈ danglingList g 0 ↔ d < g.arena.length ∧ endlinkedAt g d = true := by
  unfold danglingList
  rw [List.mem_filter, List.mem_range'_1]
  constructor
  · rintro ⟨⟨h0, h1⟩, h2⟩
    exact ⟨by omega, h2⟩
  · rintro ⟨h1, h2⟩
    exact ⟨⟨Nat.zero_le d, by omega⟩, h2⟩

/-- The number of dangling nodes found by a scan from handle 0 is the
endlinked count. -/
theorem danglingList_length {T : Type} (g : Graph T) :
    (danglingList g 0).length = endCount g := by
  unfold danglingList endCount
  rw [Nat.sub_zero, ← List.range_eq_range', List.countP_eq_length_filter]

/-- `close_junction` at handle 0 under the construction invariant: one merge
node is allocated at the old arena end, it becomes active, and it receives
exactly one incoming epsilon edge per dangling node. -/
theorem close_junction_spec {T : Type} {g : Graph T} (h : GInv g) :
    (close_junction g 0).arena.length = g.arena.length + 1 ∧
    (close_junction g 0).active = g.arena.length ∧
    epsInto (close_junction g 0) g.arena.length = endCount g := by
  obtain ⟨hA, hpos, ha, hact, htg⟩ := h
  have hmem : g.active ∈ danglingList g 0 := mem_danglingList.mpr ⟨ha, hact⟩
  have hne : danglingList g 0 ≠ [] := fun hcon => by
    rw [hcon] at hmem
    cases hmem
  have hemp : (danglingList g 0).isEmpty = false := by
    rcases hd : danglingList g 0 with _ | ⟨x, xs⟩
    · exact absurd hd hne
    · rfl
  have hck : close_junction g 0 =
      set_active ((danglingList g 0).foldl
        (fun acc i => bump_endlinked acc i g.arena.length none)
        { g with arena := g.arena ++ [some (Node.mk [] false)] }) g.arena.length := by
    show (if (danglingList g 0).isEmpty = true then g
        else set_active ((danglingList g 0).foldl
          (fun acc i => bump_endlinked acc i g.arena.length none)
          { g with arena := g.arena ++ [some (Node.mk [] false)] }) g.arena.length) = _
    rw [hemp, if_neg Bool.false_ne_true]
  have hlenfold : ∀ (D : List Nat) (g2 : Graph T),
      (D.foldl (fun acc i => bump_endlinked acc i g.arena.length none) g2).arena.length
        = g2.arena.length := by
    intro D
    induction D with
    | nil => intro g2; rfl
    | cons d D ih => intro g2; rw [List.foldl_cons, ih, length_bump]
  refine ⟨?_, ?_, ?_⟩
  · rw [hck, length_set_active, hlenfold]
    simp
  · rw [hck, active_set_active]
  · rw [hck, epsInto_set_active]
    rw [epsInto_fold_bump g.arena.length (danglingList g 0)
      { g with arena := g.arena ++ [some (Node.mk [] false)] } ?_ ?_]
    · rw [epsInto_append_new, epsInto_zero_of_targets htg (Nat.le_refl _),
        danglingList_length]
      omega
    · exact allSome_add_node hA
    · intro d hd
      show d < (g.arena ++ [some (Node.mk [] false)]).length
      rw [List.length_append]
      have := (mem_danglingList.mp hd).1
      simp
      omega


/-- The fresh graph satisfies the construction invariant. -/
theorem ginv_new {T : Type} : GInv (Graph.new : Graph T) := by
  have harena : (Graph.new : Graph T)
      = { arena := [some (Node.mk [] true)], start := 0, active := 0 } := rfl
  rw [harena]
  refine ⟨?_, ?_, ?_, ?_, ?_⟩
  · intro slot hs
    rw [List.mem_singleton.mp hs]
    rfl
  · show (0 : Nat) < 1
    omega
  · show (0 : Nat) < 1
    omega
  · rfl
  · intro i e he
    cases i with
    | zero => cases he
    | succ n => cases he


/-- Claim C2 counterexample: two branches `ε` and `a` opened from handle 0
(`m = 2`); the merge node (handle 2) receives exactly one incoming epsilon
edge, not `m = 2`: the empty first branch is absorbed when the second branch
re-opens handle 0. -/
theorem claim_C2_counterexample :
    [([] : List Char), ['a']].length = 2 ∧
    (close_junction (buildBranches [([] : List Char), ['a']]) 0).arena.length = 3 ∧
    epsInto (close_junction (buildBranches [([] : List Char), ['a']]) 0) 2 = 1 :=
  ⟨rfl, rfl, rfl⟩

/-- Claim C2 (corrected): closing after opening `m = 1 + |bs|` branches from
handle 0 of a fresh graph allocates exactly one new merge node (the new
active node, at the old arena end), and the merge node's incoming epsilon
edges number one per nonempty branch plus one for the start handle exactly
when the last branch is empty — equal to `m` only when at most the final
branch is empty. -/
theorem claim_C2_branch_merge {T : Type} (b : List T) (bs : List (List T)) :
    (close_junction (buildBranches (b :: bs)) 0).arena.length
      = (buildBranches (b :: bs)).arena.length + 1 ∧
    (close_junction (buildBranches (b :: bs)) 0).active
      = (buildBranches (b :: bs)).arena.length ∧
    epsInto (close_junction (buildBranches (b :: bs)) 0)
        ((buildBranches (b :: bs)).arena.length)
      = ((b :: bs).filter (fun x => !x.isEmpty)).length
          + (if ((b :: bs).getLastD []).isEmpty then 1 else 0) := by
  simp only [buildBranches]
  obtain ⟨hg, hc, _⟩ := buildBranches_spec (b :: bs) Graph.new ginv_new
  obtain ⟨hl, hact, heps⟩ := close_junction_spec hg
  refine ⟨hl, hact, ?_⟩
  rw [heps, hc]
  have h1 : endCount (Graph.new : Graph T) = 1 := rfl
  have h2 : endlinkedAt (Graph.new : Graph T) 0 = true := rfl
  have h3 : branchGain true (b :: bs) = branchGain b.isEmpty bs := by
    simp [branchGain]
  rw [h1, h2, h3]
  exact branchGain_formula bs b

theorem start_foldl_add_cost {T : Type} :
    ∀ (cs : List T) (g : Graph T), (cs.foldl add_cost g).start = g.start := by
  intro cs
  induction cs with
  | nil => intro g; rfl
  | cons c cs ih => intro g; rw [List.foldl_cons, ih]; rfl

theorem ginv_atomGraph {T : Type} (cs : List T) : GInv (atomGraph cs) :=
  ginv_foldl_add_cost cs Graph.new ginv_new

theorem atomGraph_start {T : Type} (cs : List T) : (atomGraph cs).start = 0 := by
  show (cs.foldl add_cost Graph.new).start = 0
  rw [start_foldl_add_cost]
  rfl

/-- Pointwise description of the atom graph: a line of `|cs| + 1` nodes, one
labeled edge from each node to the next, only the last node endlinked. -/
theorem atomGraph_facts {T : Type} (d : T) :
    ∀ cs : List T,
      (atomGraph cs).arena.length = cs.length + 1 ∧
      (atomGraph cs).active = cs.length ∧
      (∀ j, endlinkedAt (atomGraph cs) j = decide (j = cs.length)) ∧
      (∀ j, j < cs.length → nodeEdges (atomGraph cs) j = [(j + 1, some (cs.getD j d))]) ∧
      (∀ j, cs.length ≤ j → nodeEdges (atomGraph cs) j = []) := by
  intro cs
  induction cs using List.reverseRecOn with
  | nil =>
      refine ⟨rfl, rfl, ?_, ?_, ?_⟩
      · intro j
        cases j with
        | zero => rfl
        | succ n => rfl
      · intro j hj
        cases hj
      · intro j hj
        cases j with
        | zero => rfl
        | succ n => rfl
  | append_singleton cs c ih =>
      obtain ⟨ihlen, ihact, ihend, ihlt, ihge⟩ := ih
      have heq : atomGraph (cs ++ [c]) = add_cost (atomGraph cs) c := by
        show (cs ++ [c]).foldl add_cost Graph.new = _
        rw [List.foldl_append]
        rfl
      have hg : GInv (atomGraph cs) := ginv_atomGraph cs
      have ha : (atomGraph cs).active < (atomGraph cs).arena.length := hg.2.2.1
      have hlen2 : (cs ++ [c]).length = cs.length + 1 := by simp
      refine ⟨?_, ?_, ?_, ?_, ?_⟩
      · rw [heq, length_add_cost, ihlen, hlen2]
      · rw [heq, active_add_cost, ihlen, hlen2]
      · intro j
        rw [heq, endlinkedAt_add_cost hg.1 ha, ihlen, ihact, hlen2]
        by_cases h1 : j = cs.length + 1
        · rw [if_pos h1, h1]
          simp
        · rw [if_neg h1]
          by_cases h2 : j = cs.length
          · rw [if_pos h2, h2]
            simp
          · rw [if_neg h2, ihend j]
            simp [h1, h2]
      · intro j hj
        rw [heq, nodeEdges_add_cost hg.1 ha, ihlen, ihact]
        rw [hlen2] at hj
        by_cases h2 : j = cs.length
        · rw [if_neg (by omega), if_pos h2, ihge j (Nat.le_of_eq h2.symm),
            List.nil_append, h2, getD_append_one, if_pos rfl]
        · have h3 : j < cs.length := by omega
          rw [if_neg (by omega), if_neg h2, ihlt j h3, List.getD_append _ _ _ _ h3]
      · intro j hj
        rw [heq, nodeEdges_add_cost hg.1 ha, ihlen, ihact]
        rw [hlen2] at hj
        by_cases h1 : j = cs.length + 1
        · rw [if_pos h1]
        · rw [if_neg h1, if_neg (by omega), ihge j (by omega)]

/-- Pointwise description of `one_or_more` applied at 0 to the atom
`c :: rest`: the atom's line plus an epsilon back-edge from its last node
(still active) to node 0. -/
theorem oneOrMore_facts {T : Type} (c : T) (rest : List T) :
    (one_or_more (atomGraph (c :: rest)) 0).active = rest.length + 1 ∧
    (one_or_more (atomGraph (c :: rest)) 0).start = 0 ∧
    (∀ j, j < rest.length + 1 →
      nodeEdges (one_or_more (atomGraph (c :: rest)) 0) j
        = [(j + 1, some ((c :: rest).getD j c))]) ∧
    nodeEdges (one_or_more (atomGraph (c :: rest)) 0) (rest.length + 1) = [(0, none)] ∧
    (∀ j, rest.length + 1 < j →
      nodeEdges (one_or_more (atomGraph (c :: rest)) 0) j = []) := by
  obtain ⟨hlen, hact, hend, hlt, hge⟩ := atomGraph_facts c (c :: rest)
  have hg := ginv_atomGraph (c :: rest)
  obtain ⟨nk, hnk⟩ := getD_some_of_allSome hg.1 hg.2.2.1
  have hnke : nk.edges = [] := by
    have h := hge (atomGraph (c :: rest)).active (Nat.le_of_eq hact.symm)
    unfold nodeEdges at h
    rw [hnk] at h
    exact h
  have hone : one_or_more (atomGraph (c :: rest)) 0
      = modifyNode (atomGraph (c :: rest)) (atomGraph (c :: rest)).active
          (fun n => { n with edges := n.edges ++ [(0, none)] }) := rfl
  refine ⟨hact, atomGraph_start (c :: rest), ?_, ?_, ?_⟩
  · intro j hj
    rw [hone, nodeEdges_modify_of_some _ hnk j, if_neg ?_]
    · exact hlt j hj
    · rw [hact]
      simp only [List.length_cons]
      omega
  · rw [hone, nodeEdges_modify_of_some _ hnk (rest.length + 1),
      if_pos (show (atomGraph (c :: rest)).active = rest.length + 1 from hact)]
    show nk.edges ++ [(0, none)] = [(0, none)]
    rw [hnke, List.nil_append]
  · intro j hj
    rw [hone, nodeEdges_modify_of_some _ hnk j, if_neg ?_]
    · refine hge j ?_
      simp only [List.length_cons]
      omega
    · rw [hact]
      simp only [List.length_cons]
      omega

/-- Pointwise description of `zero_or_more` applied at 0 to the atom
`c :: rest`: the same edges as `one_or_more`, with node 0 re-activated. -/
theorem zeroOrMore_facts {T : Type} (c : T) (rest : List T) :
    (zero_or_more (atomGraph (c :: rest)) 0).active = 0 ∧
    (zero_or_more (atomGraph (c :: rest)) 0).start = 0 ∧
    (∀ j, nodeEdges (zero_or_more (atomGraph (c :: rest)) 0) j
       = nodeEdges (one_or_more (atomGraph (c :: rest)) 0) j) := by
  refine ⟨rfl, ?_, ?_⟩
  · exact (oneOrMore_facts c rest).2.1
  · intro j
    exact nodeEdges_set_active (one_or_more (atomGraph (c :: rest)) 0) 0 j

/-- Pointwise description of `zero_or_one` applied at 0 to the atom
`c :: rest`: a fresh merge node at the arena end, reached by an epsilon edge
from node 0 (the zero-width path) and one from the atom's last node. -/
theorem zeroOrOne_facts {T : Type} (c : T) (rest : List T) :
    (zero_or_one (atomGraph (c :: rest)) 0).active = rest.length + 2 ∧
    (zero_or_one (atomGraph (c :: rest)) 0).start = 0 ∧
    nodeEdges (zero_or_one (atomGraph (c :: rest)) 0) 0
      = [(1, some c), (rest.length + 2, none)] ∧
    (∀ j, 1 ≤ j → j < rest.length + 1 →
      nodeEdges (zero_or_one (atomGraph (c :: rest)) 0) j
        = [(j + 1, some ((c :: rest).getD j c))]) ∧
    nodeEdges (zero_or_one (atomGraph (c :: rest)) 0) (rest.length + 1)
      = [(rest.length + 2, none)] ∧
    (∀ j, rest.length + 1 < j →
      nodeEdges (zero_or_one (atomGraph (c :: rest)) 0) j = []) := by
  obtain ⟨hlen, hact, hend, hlt, hge⟩ := atomGraph_facts c (c :: rest)
  have hg := ginv_atomGraph (c :: rest)
  have hpos : 0 < (atomGraph (c :: rest)).arena.length := hg.2.1
  obtain ⟨n0, hn0⟩ := getD_some_of_allSome hg.1 hpos
  have hn0e : n0.edges = [(1, some c)] := by
    have h := hlt 0 (Nat.succ_pos rest.length)
    unfold nodeEdges at h
    rw [hn0] at h
    exact h
  obtain ⟨nk, hnk⟩ := getD_some_of_allSome hg.1
    (show rest.length + 1 < (atomGraph (c :: rest)).arena.length by
      rw [hlen]
      simp)
  have hnke : nk.edges = [] := by
    have h := hge (rest.length + 1) (Nat.le_refl _)
    unfold nodeEdges at h
    rw [hnk] at h
    exact h
  have hg1len : (add_junction (atomGraph (c :: rest)) 0).arena.length
      = rest.length + 2 := by
    rw [show add_junction (atomGraph (c :: rest)) 0
        = set_active (atomGraph (c :: rest)) 0 from rfl, length_set_active, hlen]
    rfl
  have hg1end : ∀ j, endlinkedAt (add_junction (atomGraph (c :: rest)) 0) j
      = if 0 = j then true else endlinkedAt (atomGraph (c :: rest)) j :=
    fun j => endlinkedAt_set_active_of_some hn0 j
  have hg1edges : ∀ j, nodeEdges (add_junction (atomGraph (c :: rest)) 0) j
      = nodeEdges (atomGraph (c :: rest)) j :=
    fun j => nodeEdges_set_active _ 0 j
  have hg1_0 : (add_junction (atomGraph (c :: rest)) 0).arena.getD 0 none
      = some (Node.mk n0.edges true) := by
    show (modifyNode (atomGraph (c :: rest)) 0
        (fun n => { n with endlinked := true })).arena.getD 0 none = _
    rw [getD_modifyNode, if_pos ⟨rfl, hpos⟩, hn0]
    rfl
  have hg1_k : (add_junction (atomGraph (c :: rest)) 0).arena.getD
      (rest.length + 1) none = some nk := by
    show (modifyNode (atomGraph (c :: rest)) 0
        (fun n => { n with endlinked := true })).arena.getD (rest.length + 1) none = _
    rw [getD_modifyNode, if_neg (fun h => Nat.succ_ne_zero _ h.1.symm)]
    exact hnk
  have hD : danglingList (add_junction (atomGraph (c :: rest)) 0) 0
      = [0, rest.length + 1] := by
    unfold danglingList
    rw [Nat.sub_zero, hg1len,
      show List.range' 0 (rest.length + 2) = 0 :: List.range' 1 (rest.length + 1)
        from rfl,
      List.filter_cons, if_pos (by simp [hg1end 0]), List.range'_1_concat,
      List.filter_append]
    rw [show (List.range' 1 rest.length).filter
          (fun i => endlinkedAt (add_junction (atomGraph (c :: rest)) 0) i) = []
        from ?_,
      show List.filter
          (fun i => endlinkedAt (add_junction (atomGraph (c :: rest)) 0) i)
          [1 + rest.length] = [1 + rest.length] from ?_]
    · rw [List.nil_append, show 1 + rest.length = rest.length + 1 from by omega]
    · rw [List.filter_cons]
      rw [if_pos ?_]
      · rfl
      · simp only [hg1end (1 + rest.length), hend (1 + rest.length)]
        rw [if_neg (by omega)]
        simp only [decide_eq_true_eq, List.length_cons]
        omega
    · rw [List.filter_eq_nil_iff]
      intro a ha
      have hmem := List.mem_range'_1.mp ha
      simp only [hg1end a, hend a]
      rw [if_neg (by omega)]
      simp only [decide_eq_true_eq, List.length_cons]
      omega
  have hck : zero_or_one (atomGraph (c :: rest)) 0
      = set_active (bump_endlinked (bump_endlinked
          { add_junction (atomGraph (c :: rest)) 0 with
              arena := (add_junction (atomGraph (c :: rest)) 0).arena
                ++ [some (Node.mk [] false)] }
          0 (add_junction (atomGraph (c :: rest)) 0).arena.length none)
          (rest.length + 1) (add_junction (atomGraph (c :: rest)) 0).arena.length none)
          (add_junction (atomGraph (c :: rest)) 0).arena.length := by
    show (if (danglingList (add_junction (atomGraph (c :: rest)) 0) 0).isEmpty = true
        then add_junction (atomGraph (c :: rest)) 0
        else set_active
          ((danglingList (add_junction (atomGraph (c :: rest)) 0) 0).foldl
            (fun acc i => bump_endlinked acc i
              (add_junction (atomGraph (c :: rest)) 0).arena.length none)
            { add_junction (atomGraph (c :: rest)) 0 with
                arena := (add_junction (atomGraph (c :: rest)) 0).arena
                  ++ [some (Node.mk [] false)] })
          (add_junction (atomGraph (c :: rest)) 0).arena.length) = _
    rw [hD]
    rfl
  have hgA_0 : ({ add_junction (atomGraph (c :: rest)) 0 with
      arena := (add_junction (atomGraph (c :: rest)) 0).arena
        ++ [some (Node.mk [] false)] } : Graph T).arena.getD 0 none
      = some (Node.mk n0.edges true) := by
    show ((add_junction (atomGraph (c :: rest)) 0).arena
        ++ [some (Node.mk [] false)]).getD 0 none = _
    rw [getD_append_one, if_neg (by rw [hg1len]; omega)]
    exact hg1_0
  have hgA_k : ({ add_junction (atomGraph (c :: rest)) 0 with
      arena := (add_junction (atomGraph (c :: rest)) 0).arena
        ++ [some (Node.mk [] false)] } : Graph T).arena.getD (rest.length + 1) none
      = some nk := by
    show ((add_junction (atomGraph (c :: rest)) 0).arena
        ++ [some (Node.mk [] false)]).getD (rest.length + 1) none = _
    rw [getD_append_one, if_neg (by rw [hg1len]; omega)]
    exact hg1_k
  have hb1_k : (bump_endlinked
      { add_junction (atomGraph (c :: rest)) 0 with
          arena := (add_junction (atomGraph (c :: rest)) 0).arena
            ++ [some (Node.mk [] false)] }
      0 (add_junction (atomGraph (c :: rest)) 0).arena.length none).arena.getD
      (rest.length + 1) none = some nk := by
    show (modifyNode _ 0 _).arena.getD (rest.length + 1) none = _
    rw [getD_modifyNode, if_neg (fun h => Nat.succ_ne_zero _ h.1.symm)]
    exact hgA_k
  refine ⟨?_, ?_, ?_, ?_, ?_, ?_⟩
  · rw [hck, active_set_active]
    exact hg1len
  · rw [hck]
    exact atomGraph_start (c :: rest)
  · rw [hck, nodeEdges_set_active, nodeEdges_bump_of_some hb1_k 0,
      if_neg (fun h => Nat.succ_ne_zero _ h), nodeEdges_bump_of_some hgA_0 0,
      if_pos rfl]
    show Node.edges (Node.mk n0.edges true) ++ _ = _
    rw [show Node.edges (Node.mk n0.edges true) = n0.edges from rfl, hn0e, hg1len]
    rfl
  · intro j h1 h2
    rw [hck, nodeEdges_set_active, nodeEdges_bump_of_some hb1_k j,
      if_neg (by omega), nodeEdges_bump_of_some hgA_0 j, if_neg (by omega),
      nodeEdges_append, if_neg (by rw [hg1len]; omega), hg1edges j]
    refine hlt j ?_
    simp only [List.length_cons]
    omega
  · rw [hck, nodeEdges_set_active, nodeEdges_bump_of_some hb1_k (rest.length + 1),
      if_pos rfl]
    show nk.edges ++ _ = _
    rw [hnke, List.nil_append, hg1len]
  · intro j hj
    rw [hck, nodeEdges_set_active, nodeEdges_bump_of_some hb1_k j,
      if_neg (by omega), nodeEdges_bump_of_some hgA_0 j, if_neg (by omega),
      nodeEdges_append]
    by_cases hje : j = (add_junction (atomGraph (c :: rest)) 0).arena.length
    · rw [if_pos hje]
    · rw [if_neg hje, hg1edges j]
      refine hge j ?_
      simp only [List.length_cons]
      omega

/-- Dropping the whole atom word leaves nothing. -/
theorem drop_atom_len {T : Type} (c : T) (rest : List T) :
    (c :: rest).drop (rest.length + 1) = [] := by
  rw [show rest.length + 1 = (c :: rest).length from rfl, List.drop_length]

/-- One step of the atom chain, as a word equation. -/
theorem drop_atom_cons {T : Type} (c : T) (rest : List T) (j : Nat)
    (hj : j < rest.length + 1) :
    (c :: rest).drop j = (c :: rest).getD j c :: (c :: rest).drop (j + 1) := by
  rw [List.drop_eq_getElem_cons (show j < (c :: rest).length from by simpa using hj)]
  congr 1
  rw [List.getD_eq_getElem?_getD, List.getElem?_eq_getElem]
  rfl

/-- Walking down the atom chain: any graph whose interior nodes keep the
chain edges consumes the dropped suffix of the atom from node `j` to the
atom's last node. -/
theorem accepts_walk {T : Type} {G : Graph T} {accept : Nat} {c : T} {rest : List T}
    (hmid : ∀ j, j < rest.length + 1 →
      (j + 1, some ((c :: rest).getD j c)) ∈ nodeEdges G j) :
    ∀ (n j : Nat), j + n = rest.length + 1 → ∀ w,
      Accepts G accept (rest.length + 1) w →
      Accepts G accept j ((c :: rest).drop j ++ w) := by
  intro n
  induction n with
  | zero =>
      intro j hj w hw
      have hje : j = rest.length + 1 := by omega
      subst hje
      rw [drop_atom_len, List.nil_append]
      exact hw
  | succ n ih =>
      intro j hj w hw
      have hjlt : j < rest.length + 1 := by omega
      rw [drop_atom_cons c rest j hjlt, List.cons_append]
      exact Accepts.lbl (hmid j hjlt) (ih (j + 1) (by omega) w hw)

/-- Language characterization for `one_or_more` on the atom `c :: rest`,
node by node: from node `j` the accepted words are the dropped suffix
followed by any number of repetitions of the atom. -/
theorem accepts_plus {T : Type} (c : T) (rest : List T) :
    ∀ j w, Accepts (one_or_more (atomGraph (c :: rest)) 0) (rest.length + 1) j w ↔
      (j ≤ rest.length + 1 ∧
        ∃ n, w = (c :: rest).drop j ++ repWord (c :: rest) n) := by
  obtain ⟨hact, hstart, hlt, hk, hgt⟩ := oneOrMore_facts c rest
  have hmid : ∀ j, j < rest.length + 1 →
      (j + 1, some ((c :: rest).getD j c))
        ∈ nodeEdges (one_or_more (atomGraph (c :: rest)) 0) j := by
    intro j hj
    rw [hlt j hj]
    exact List.mem_singleton.mpr rfl
  have hrep : ∀ m, Accepts (one_or_more (atomGraph (c :: rest)) 0)
      (rest.length + 1) (rest.length + 1) (repWord (c :: rest) m) := by
    intro m
    induction m with
    | zero => exact Accepts.done
    | succ m ihm =>
        refine Accepts.eps (show ((0 : Nat), (none : Option T))
            ∈ nodeEdges (one_or_more (atomGraph (c :: rest)) 0) (rest.length + 1) from by
          rw [hk]
          exact List.mem_singleton.mpr rfl) ?_
        have hw := accepts_walk hmid (rest.length + 1) 0 (by omega)
          (repWord (c :: rest) m) ihm
        rw [List.drop_zero] at hw
        exact hw
  intro j w
  constructor
  · intro h
    induction h with
    | done =>
        refine ⟨Nat.le_refl _, 0, ?_⟩
        rw [drop_atom_len, List.nil_append]
        rfl
    | lbl hmem hacc ih =>
        rename_i j i cc w
        rcases Nat.lt_trichotomy j (rest.length + 1) with hj | hj | hj
        · rw [hlt j hj, List.mem_singleton] at hmem
          have hi := congrArg Prod.fst hmem
          have hcc := congrArg Prod.snd hmem
          simp at hi hcc
          subst hi
          obtain ⟨hle, n, hw⟩ := ih
          refine ⟨Nat.le_of_lt hj, n, ?_⟩
          rw [drop_atom_cons c rest j hj, List.cons_append, hcc, hw,
            List.getD_eq_getElem?_getD]
        · subst hj
          rw [hk, List.mem_singleton] at hmem
          have hcc := congrArg Prod.snd hmem
          simp at hcc
        · rw [hgt j hj] at hmem
          cases hmem
    | eps hmem hacc ih =>
        rename_i j i w
        rcases Nat.lt_trichotomy j (rest.length + 1) with hj | hj | hj
        · rw [hlt j hj, List.mem_singleton] at hmem
          have hcc := congrArg Prod.snd hmem
          simp at hcc
        · subst hj
          rw [hk, List.mem_singleton] at hmem
          have hi := congrArg Prod.fst hmem
          simp at hi
          subst hi
          obtain ⟨hle, n, hw⟩ := ih
          refine ⟨Nat.le_refl _, n + 1, ?_⟩
          rw [drop_atom_len, List.nil_append, hw, List.drop_zero]
          rfl
        · rw [hgt j hj] at hmem
          cases hmem
  · rintro ⟨hj, n, rfl⟩
    exact accepts_walk hmid (rest.length + 1 - j) j (by omega) _ (hrep n)

/-- Language characterization for `zero_or_more` on the atom `c :: rest`,
node by node. -/
theorem accepts_star {T : Type} (c : T) (rest : List T) :
    ∀ j w, Accepts (zero_or_more (atomGraph (c :: rest)) 0) 0 j w ↔
      ((j = 0 ∧ ∃ n, w = repWord (c :: rest) n) ∨
       (1 ≤ j ∧ j ≤ rest.length + 1 ∧
         ∃ n, w = (c :: rest).drop j ++ repWord (c :: rest) n)) := by
  obtain ⟨hact, hstart, hsame⟩ := zeroOrMore_facts c rest
  obtain ⟨_, _, hltP, hkP, hgtP⟩ := oneOrMore_facts c rest
  have hlt : ∀ j, j < rest.length + 1 →
      nodeEdges (zero_or_more (atomGraph (c :: rest)) 0) j
        = [(j + 1, some ((c :: rest).getD j c))] :=
    fun j hj => (hsame j).trans (hltP j hj)
  have hk : nodeEdges (zero_or_more (atomGraph (c :: rest)) 0) (rest.length + 1)
      = [(0, none)] := (hsame _).trans hkP
  have hgt : ∀ j, rest.length + 1 < j →
      nodeEdges (zero_or_more (atomGraph (c :: rest)) 0) j = [] :=
    fun j hj => (hsame j).trans (hgtP j hj)
  have hmid : ∀ j, j < rest.length + 1 →
      (j + 1, some ((c :: rest).getD j c))
        ∈ nodeEdges (zero_or_more (atomGraph (c :: rest)) 0) j := by
    intro j hj
    rw [hlt j hj]
    exact List.mem_singleton.mpr rfl
  have hrep0 : ∀ m, Accepts (zero_or_more (atomGraph (c :: rest)) 0) 0 0
      (repWord (c :: rest) m) := by
    intro m
    induction m with
    | zero => exact Accepts.done
    | succ m ihm =>
        show Accepts _ 0 0 ((c :: rest) ++ repWord (c :: rest) m)
        rw [List.cons_append]
        refine Accepts.lbl (show ((1 : Nat), some c) ∈ _ from by
          rw [hlt 0 (Nat.succ_pos _)]
          exact List.mem_singleton.mpr rfl) ?_
        have hkacc : Accepts (zero_or_more (atomGraph (c :: rest)) 0) 0
            (rest.length + 1) (repWord (c :: rest) m) :=
          Accepts.eps (by rw [hk]; exact List.mem_singleton.mpr rfl) ihm
        have hw := accepts_walk hmid rest.length 1 (by omega) _ hkacc
        exact hw
  intro j w
  constructor
  · intro h
    induction h with
    | done => exact Or.inl ⟨rfl, 0, rfl⟩
    | lbl hmem hacc ih =>
        rename_i j i cc w
        rcases Nat.lt_trichotomy j (rest.length + 1) with hj | hj | hj
        · rw [hlt j hj, List.mem_singleton] at hmem
          have hi := congrArg Prod.fst hmem
          have hcc := congrArg Prod.snd hmem
          simp at hi hcc
          subst hi
          rcases ih with ⟨h0, _⟩ | ⟨h1, h2, n, hw⟩
          · exact absurd h0 (Nat.succ_ne_zero j)
          · by_cases hj0 : j = 0
            · subst hj0
              refine Or.inl ⟨rfl, n + 1, ?_⟩
              show cc :: w = (c :: rest) ++ repWord (c :: rest) n
              rw [hw, hcc, List.cons_append]
              simp
            · refine Or.inr ⟨by omega, Nat.le_of_lt hj, n, ?_⟩
              rw [drop_atom_cons c rest j hj, List.cons_append, hcc, hw,
                List.getD_eq_getElem?_getD]
        · subst hj
          rw [hk, List.mem_singleton] at hmem
          have hcc := congrArg Prod.snd hmem
          simp at hcc
        · rw [hgt j hj] at hmem
          cases hmem
    | eps hmem hacc ih =>
        rename_i j i w
        rcases Nat.lt_trichotomy j (rest.length + 1) with hj | hj | hj
        · rw [hlt j hj, List.mem_singleton] at hmem
          have hcc := congrArg Prod.snd hmem
          simp at hcc
        · subst hj
          rw [hk, List.mem_singleton] at hmem
          have hi := congrArg Prod.fst hmem
          simp at hi
          subst hi
          rcases ih with ⟨_, n, hw⟩ | ⟨h1, _⟩
          · refine Or.inr ⟨by omega, Nat.le_refl _, n, ?_⟩
            rw [drop_atom_len, List.nil_append, hw]
          · exact absurd h1 (by omega)
        · rw [hgt j hj] at hmem
          cases hmem
  · rintro (⟨rfl, n, rfl⟩ | ⟨h1, h2, n, rfl⟩)
    · exact hrep0 n
    · refine accepts_walk hmid (rest.length + 1 - j) j (by omega) _ ?_
      exact Accepts.eps (by rw [hk]; exact List.mem_singleton.mpr rfl) (hrep0 n)

/-- Language characterization for `zero_or_one` on the atom `c :: rest`,
node by node. -/
theorem accepts_opt {T : Type} (c : T) (rest : List T) :
    ∀ j w, Accepts (zero_or_one (atomGraph (c :: rest)) 0) (rest.length + 2) j w ↔
      ((j ≤ rest.length + 1 ∧ w = (c :: rest).drop j) ∨
       (j = 0 ∧ w = []) ∨ (j = rest.length + 2 ∧ w = [])) := by
  obtain ⟨hact, hstart, h0, hmidO, hkO, hgtO⟩ := zeroOrOne_facts c rest
  have hmid : ∀ j, j < rest.length + 1 →
      (j + 1, some ((c :: rest).getD j c))
        ∈ nodeEdges (zero_or_one (atomGraph (c :: rest)) 0) j := by
    intro j hj
    by_cases hj0 : j = 0
    · subst hj0
      rw [h0]
      exact List.mem_cons.mpr (Or.inl rfl)
    · rw [hmidO j (by omega) hj]
      exact List.mem_singleton.mpr rfl
  intro j w
  constructor
  · intro h
    induction h with
    | done => exact Or.inr (Or.inr ⟨rfl, rfl⟩)
    | lbl hmem hacc ih =>
        rename_i j i cc w
        by_cases hj0 : j = 0
        · subst hj0
          rw [h0, List.mem_cons, List.mem_singleton] at hmem
          rcases hmem with hmem | hmem
          · have hi := congrArg Prod.fst hmem
            have hcc := congrArg Prod.snd hmem
            simp at hi hcc
            subst hi
            rcases ih with ⟨_, hw⟩ | ⟨h1, _⟩ | ⟨h1, _⟩
            · refine Or.inl ⟨Nat.zero_le _, ?_⟩
              rw [List.drop_zero, hw, hcc]
              rfl
            · exact absurd h1 (by omega)
            · exact absurd h1 (by omega)
          · have hcc := congrArg Prod.snd hmem
            simp at hcc
        · rcases Nat.lt_trichotomy j (rest.length + 1) with hj | hj | hj
          · rw [hmidO j (by omega) hj, List.mem_singleton] at hmem
            have hi := congrArg Prod.fst hmem
            have hcc := congrArg Prod.snd hmem
            simp at hi hcc
            subst hi
            rcases ih with ⟨_, hw⟩ | ⟨h1, _⟩ | ⟨h1, _⟩
            · refine Or.inl ⟨Nat.le_of_lt hj, ?_⟩
              rw [drop_atom_cons c rest j hj, hcc, hw, List.getD_eq_getElem?_getD]
            · exact absurd h1 (Nat.succ_ne_zero j)
            · exact absurd h1 (by omega)
          · subst hj
            rw [hkO, List.mem_singleton] at hmem
            have hcc := congrArg Prod.snd hmem
            simp at hcc
          · rw [hgtO j hj] at hmem
            cases hmem
    | eps hmem hacc ih =>
        rename_i j i w
        by_cases hj0 : j = 0
        · subst hj0
          rw [h0, List.mem_cons, List.mem_singleton] at hmem
          rcases hmem with hmem | hmem
          · have hcc := congrArg Prod.snd hmem
            simp at hcc
          · have hi := congrArg Prod.fst hmem
            simp at hi
            subst hi
            rcases ih with ⟨h1, _⟩ | ⟨h1, _⟩ | ⟨_, hw⟩
            · exact absurd h1 (by omega)
            · exact absurd h1 (by omega)
            · exact Or.inr (Or.inl ⟨rfl, hw⟩)
        · rcases Nat.lt_trichotomy j (rest.length + 1) with hj | hj | hj
          · rw [hmidO j (by omega) hj, List.mem_singleton] at hmem
            have hcc := congrArg Prod.snd hmem
            simp at hcc
          · subst hj
            rw [hkO, List.mem_singleton] at hmem
            have hi := congrArg Prod.fst hmem
            simp at hi
            subst hi
            rcases ih with ⟨h1, _⟩ | ⟨h1, _⟩ | ⟨_, hw⟩
            · exact absurd h1 (by omega)
            · exact absurd h1 (by omega)
            · refine Or.inl ⟨Nat.le_refl _, ?_⟩
              rw [drop_atom_len, hw]
          · rw [hgtO j hj] at hmem
            cases hmem
  · rintro (⟨hj, rfl⟩ | ⟨rfl, rfl⟩ | ⟨rfl, rfl⟩)
    · have hbase : Accepts (zero_or_one (atomGraph (c :: rest)) 0) (rest.length + 2)
          (rest.length + 1) [] :=
        Accepts.eps (by rw [hkO]; exact List.mem_singleton.mpr rfl) Accepts.done
      have hw := accepts_walk hmid (rest.length + 1 - j) j (by omega) [] hbase
      rw [List.append_nil] at hw
      exact hw
    · exact Accepts.eps (by
        rw [h0]
        exact List.mem_cons.mpr (Or.inr (List.mem_singleton.mpr rfl))) Accepts.done
    · exact Accepts.done

/-- Claim C1: on the atom `X = c :: rest` built from a fresh graph (handle 0
active before the atom), `zero_or_one` (`make_optional`) yields an automaton
accepting exactly the empty word or `X`; `one_or_more` (`make_repeatable`)
exactly `X, XX, XXX, …`; `zero_or_more` (`make_optional_repeatable`) exactly
`ε, X, XX, …` — acceptance being consumption along a path from the start
node to the final active node. -/
theorem claim_C1_quantifier_languages {T : Type} (c : T) (rest : List T) :
    (∀ w, GAccepts (zero_or_one (atomGraph (c :: rest)) 0) w ↔
      (w = [] ∨ w = c :: rest)) ∧
    (∀ w, GAccepts (one_or_more (atomGraph (c :: rest)) 0) w ↔
      ∃ n, w = repWord (c :: rest) (n + 1)) ∧
    (∀ w, GAccepts (zero_or_more (atomGraph (c :: rest)) 0) w ↔
      ∃ n, w = repWord (c :: rest) n) := by
  refine ⟨?_, ?_, ?_⟩
  · intro w
    unfold GAccepts
    rw [(zeroOrOne_facts c rest).1, (zeroOrOne_facts c rest).2.1,
      accepts_opt c rest 0 w]
    constructor
    · rintro (⟨_, rfl⟩ | ⟨_, rfl⟩ | ⟨h, _⟩)
      · right
        rw [List.drop_zero]
      · left
        rfl
      · exact absurd h (by omega)
    · rintro (rfl | rfl)
      · exact Or.inr (Or.inl ⟨rfl, rfl⟩)
      · exact Or.inl ⟨Nat.zero_le _, (List.drop_zero _).symm⟩
  · intro w
    unfold GAccepts
    rw [(oneOrMore_facts c rest).1, (oneOrMore_facts c rest).2.1,
      accepts_plus c rest 0 w]
    constructor
    · rintro ⟨_, n, hw⟩
      refine ⟨n, ?_⟩
      rw [hw, List.drop_zero]
      rfl
    · rintro ⟨n, rfl⟩
      refine ⟨Nat.zero_le _, n, ?_⟩
      rw [List.drop_zero]
      rfl
  · intro w
    unfold GAccepts
    rw [(zeroOrMore_facts c rest).1, (zeroOrMore_facts c rest).2.1,
      accepts_star c rest 0 w]
    constructor
    · rintro (⟨_, h⟩ | ⟨h1, _⟩)
      · exact h
      · exact absurd h1 (by omega)
    · intro h
      exact Or.inl ⟨rfl, h⟩

/-- Claim C1 witness: the three quantifier languages at the concrete atom
`a`. -/
theorem claim_C1_quantifier_languages_witness :
    (∀ w, GAccepts (zero_or_one (atomGraph ['a']) 0) w ↔ (w = [] ∨ w = ['a'])) ∧
    (∀ w, GAccepts (one_or_more (atomGraph ['a']) 0) w ↔
      ∃ n, w = repWord ['a'] (n + 1)) ∧
    (∀ w, GAccepts (zero_or_more (atomGraph ['a']) 0) w ↔
      ∃ n, w = repWord ['a'] n) :=
  claim_C1_quantifier_languages 'a' []

/-- Claim C2 witness: the merge-edge count at the concrete branches `a`, `b`
(both nonempty, so the count is `m = 2`). -/
theorem claim_C2_branch_merge_witness :
    (close_junction (buildBranches [['a'], ['b']]) 0).arena.length
      = (buildBranches [['a'], ['b']]).arena.length + 1 ∧
    (close_junction (buildBranches [['a'], ['b']]) 0).active
      = (buildBranches [['a'], ['b']]).arena.length ∧
    epsInto (close_junction (buildBranches [['a'], ['b']]) 0)
        ((buildBranches [['a'], ['b']]).arena.length)
      = (([['a'], ['b']] : List (List Char)).filter (fun x => !x.isEmpty)).length
          + (if (([['a'], ['b']] : List (List Char)).getLastD []).isEmpty then 1 else 0) :=
  claim_C2_branch_merge ['a'] [['b']]

/-- Claim C4 witness: the half-open membership equation at `plus_range
('a','z')` tested on `'b'`. -/
theorem claim_C4_half_open_range_witness :
    (CharClass.new.plus_range 'a' 'z').is_in 'b'
      = (CharClass.new.is_in 'b' || (decide ('a' ≤ 'b') && decide ('b' < 'z'))) :=
  claim_C4_half_open_range CharClass.new 'a' 'z' 'b'

/-- Claim C9 witness: a concrete builtin token passes through unchanged. -/
theorem claim_C9_builtin_noop_witness :
    parserStep ([], ParserState.OutOfClassWithoutQual, Graph.new) (Lexeme.Builtin 'd')
      = Except.ok ([], ParserState.OutOfClassWithoutQual, Graph.new) :=
  claim_C9_builtin_noop.1 [] Graph.new 'd'

/-- Claim C10 witness: a concrete `Range` token adds the range and the end
literal. -/
theorem claim_C10_class_range_witness :
    parserStep ([], ParserState.InClass 0 CharClass.new, Graph.new) (Lexeme.Range 'a' 'z')
      = Except.ok ([], ParserState.InClass 0
          ((CharClass.new.plus_range 'a' 'z').plus_literal 'z'), Graph.new) :=
  claim_C10_class_range.1 [] 0 CharClass.new Graph.new 'a' 'z'

end Regex
